import Mathlib

/-!
Verification of the describedir description-generation pipeline.

This file gives a shallow embedding, in Lean 4, of the parts of the
describedir Python sources (src/traversal.py, src/fileio.py, src/llm.py,
src/schema.py, src/config.py) that the frozen claims C1..C10 are about,
and settles each claim by a theorem.

Modelling conventions:
- Python strings are Lean `String`s.  Operations that the Lean kernel cannot
  evaluate (such as `String.trim`) are re-implemented on `String.data`
  (lists of characters), which is exactly Python's view of a string as a
  sequence of characters.  Python's `str.strip()` strips Unicode whitespace;
  the embedding strips the ASCII whitespace recognised by
  `Char.isWhitespace`, which agrees on every reply the other operations
  distinguish.
- The filesystem is an explicit input: an `FsEntry` tree stands for the
  observable results of `os.listdir` / `os.path.isdir` / `os.path.isfile` /
  `os.path.getsize`.  A well-formedness predicate records what a real
  directory guarantees: entry names inside one directory are distinct,
  nonempty, contain no separator, and are neither "." nor "..".
- The remote model service, `json.loads`, and the single-item description
  path are external collaborators; they are passed in as function arguments
  (oracles), following the spec's interface boundary.  `json.loads` is
  modelled at its documented interface: it either returns the parsed object
  (restricted here to string-to-string mappings, the only shape the code
  consumes from a batch reply) or raises `json.JSONDecodeError` (`none`).
- Mutation of `FileNode` dataclass instances is modelled by returning the
  updated node.
- Machine integers do not occur: every count in the sources is an unbounded
  Python int, embedded as `Nat`.
-/

/-! ## Python string primitives, embedded on character lists -/

/-- Python `str.strip()`: remove leading and trailing whitespace. -/
def pyStrip (s : String) : String :=
  ⟨((s.data.dropWhile Char.isWhitespace).reverse.dropWhile Char.isWhitespace).reverse⟩

/-- Python `str.startswith(pat)`. -/
def pyStartsWith (s pat : String) : Bool :=
  pat.data.isPrefixOf s.data

/-- Python `s.rstrip("/")`: remove all trailing `'/'` characters. -/
def rstripSlashes (s : String) : String :=
  ⟨(s.data.reverse.dropWhile (fun c => c == '/')).reverse⟩

/-- Python `s.split("\n", 1)[1]`: the part after the first newline, or
`none` when there is no newline (in which case indexing `[1]` raises
`IndexError`). -/
def afterFirstNewline : List Char → Option (List Char)
  | [] => none
  | c :: cs => if c = '\n' then some cs else afterFirstNewline cs

/-- Python `s.rsplit(pat, 1)[0]`: the part before the last occurrence of
`pat`, or all of `s` when `pat` does not occur. -/
def beforeLastOcc (pat : List Char) (l : List Char) : List Char :=
  match ((List.range (l.length + 1)).filter (fun i => pat.isPrefixOf (l.drop i))).getLast? with
  | some i => l.take i
  | none => l

/-- Python `str(x)` for an `Optional[int]`: `None` prints as "None". -/
def pyShowOptNat : Option Nat → String
  | none => "None"
  | some n => toString n

/-! ## src/schema.py: the data model -/

/-- A JSON value, the codomain of `FileNode.to_dict` /
`DescriptionOutput.to_json`.  Objects are ordered key-value lists, the
shape `json.dumps` receives from the Python code. -/
inductive Json where
  | str (s : String)
  | num (n : Nat)
  | bool (b : Bool)
  | null
  | arr (elems : List Json)
  | obj (fields : List (String × Json))

/-- The `FileNode` dataclass of src/schema.py.  Field order matches the
dataclass declaration (which is also the `__dict__` iteration order used
by `to_dict`). -/
inductive FileNode where
  | mk (name : String) (type : String) (path : String) (description : String)
      (size_bytes : Option Nat) (skipped : Option Bool) (skip_reason : Option String)
      (children : Option (List FileNode))

def FileNode.name : FileNode → String
  | .mk n _ _ _ _ _ _ _ => n

def FileNode.type : FileNode → String
  | .mk _ t _ _ _ _ _ _ => t

def FileNode.path : FileNode → String
  | .mk _ _ p _ _ _ _ _ => p

def FileNode.description : FileNode → String
  | .mk _ _ _ d _ _ _ _ => d

def FileNode.size_bytes : FileNode → Option Nat
  | .mk _ _ _ _ sb _ _ _ => sb

def FileNode.skipped : FileNode → Option Bool
  | .mk _ _ _ _ _ sk _ _ => sk

def FileNode.skip_reason : FileNode → Option String
  | .mk _ _ _ _ _ _ sr _ => sr

def FileNode.children : FileNode → Option (List FileNode)
  | .mk _ _ _ _ _ _ _ cs => cs

/-- The children actually iterated by the Python code: `node.children` when
set, and nothing when it is `None` (files).  Python treats `None` and `[]`
identically in every loop over children. -/
def FileNode.childList : FileNode → List FileNode
  | .mk _ _ _ _ _ _ _ none => []
  | .mk _ _ _ _ _ _ _ (some cs) => cs

/-- `build_tree`'s `child.name = entry; child.path = rel_path` assignments. -/
def FileNode.setNamePath : FileNode → String → String → FileNode
  | .mk _ t _ d sb sk sr cs, n, p => .mk n t p d sb sk sr cs

/-- `node.description = v; node.skipped = False`, the assignments performed
by `_describe_batch_chunk` for a path found in a parsed batch reply. -/
def FileNode.setBatchDescription : FileNode → String → FileNode
  | .mk n t p _ sb _ sr cs, v => .mk n t p v sb (some false) sr cs

mutual
/-- `FileNode.to_dict` of src/schema.py: iterate the dataclass fields in
declaration order, skip fields whose value is `None`, and recursively
serialize children.  Set-but-empty values (empty strings, empty lists,
`False`) are NOT skipped: Python only tests `v is None`. -/
def FileNode.to_dict : FileNode → List (String × Json)
  | .mk n t p d sb sk sr cs =>
    [("name", Json.str n), ("type", Json.str t), ("path", Json.str p),
     ("description", Json.str d)]
    ++ (match sb with | none => [] | some v => [("size_bytes", Json.num v)])
    ++ (match sk with | none => [] | some v => [("skipped", Json.bool v)])
    ++ (match sr with | none => [] | some v => [("skip_reason", Json.str v)])
    ++ (match cs with
        | none => []
        | some l => [("children", Json.arr (FileNode.to_dictList l))])

def FileNode.to_dictList : List FileNode → List Json
  | [] => []
  | c :: rest => Json.obj (FileNode.to_dict c) :: FileNode.to_dictList rest
end

/-- The `DescriptionOutput` dataclass of src/schema.py. -/
structure DescriptionOutput where
  schema_version : String := "describedir-v1"
  root : String := ""
  generated_at : String := ""
  model : String := ""
  tree : Option FileNode := none

/-- `DescriptionOutput.to_json`, modelled up to the JSON value handed to
`json.dumps` (the serialization to a character stream adds nothing the
claims are about). -/
def DescriptionOutput.to_json (o : DescriptionOutput) : Json :=
  Json.obj
    [("$schema", Json.str o.schema_version),
     ("root", Json.str o.root),
     ("generated_at", Json.str o.generated_at),
     ("model", Json.str o.model),
     ("tree", match o.tree with
              | some t => Json.obj t.to_dict
              | none => Json.null)]

/-! ## Node collections used by the statements -/

mutual
/-- All nodes of a tree, the node itself first, then its children's
subtrees in order. -/
def FileNode.allNodes : FileNode → List FileNode
  | .mk n t p d sb sk sr none => [.mk n t p d sb sk sr none]
  | .mk n t p d sb sk sr (some cs) =>
    .mk n t p d sb sk sr (some cs) :: FileNode.allNodesL cs

def FileNode.allNodesL : List FileNode → List FileNode
  | [] => []
  | c :: rest => FileNode.allNodes c ++ FileNode.allNodesL rest
end

mutual
/-- The `path` fields of all nodes of a tree, in `allNodes` order. -/
def FileNode.allPaths : FileNode → List String
  | .mk _ _ p _ _ _ _ none => [p]
  | .mk _ _ p _ _ _ _ (some cs) => p :: FileNode.allPathsL cs

def FileNode.allPathsL : List FileNode → List String
  | [] => []
  | c :: rest => FileNode.allPaths c ++ FileNode.allPathsL rest
end

/-! ## src/traversal.py: filesystem model, ignore patterns, build_tree -/

/-- One observable filesystem entry: what `os.listdir` + `os.path.isdir` /
`os.path.isfile` / `os.path.getsize` reveal about a name inside a
directory.  `os.listdir` returns entries in unspecified order; the order of
the `entries` list is that unspecified order. -/
inductive FsEntry where
  | file (name : String) (size : Nat)
  | dir (name : String) (entries : List FsEntry)

def FsEntry.name : FsEntry → String
  | .file n _ => n
  | .dir n _ => n

/-- Python `fnmatch.fnmatch` on POSIX (where `os.path.normcase` is the
identity), for the pattern features the repository's patterns use:
`*` matches any character sequence, `?` any single character, and every
other character matches itself.  (Character classes `[...]` appear in no
pattern of src/config.py and are not modelled.) -/
def fnmatchList : List Char → List Char → Bool
  | [], cs => cs.isEmpty
  | p :: ps, [] => if p = '*' then fnmatchList ps [] else false
  | p :: ps, c :: cs =>
    if p = '*' then fnmatchList ps (c :: cs) || fnmatchList (p :: ps) cs
    else (p = '?' || p = c) && fnmatchList ps cs
termination_by ps cs => ps.length + cs.length
decreasing_by all_goals (simp only [List.length_cons]; omega)

def fnmatch (name pat : String) : Bool :=
  fnmatchList pat.data name.data

/-- `DEFAULT_IGNORE_PATTERNS` of src/config.py. -/
def DEFAULT_IGNORE_PATTERNS : List String :=
  [".git", ".hg", ".svn", "node_modules", "__pycache__", ".venv", "venv",
   "env", ".mypy_cache", ".pytest_cache", ".tox", ".nox", ".DS_Store",
   "Thumbs.db", ".env", "*.pyc", "*.pyo", "*.egg-info", ".describedir.json"]

/-- `should_ignore` of src/traversal.py. -/
def should_ignore (name : String) (ignore_patterns : List String) : Bool :=
  ignore_patterns.any (fun pat => fnmatch name pat)

/-- Lexicographic comparison of strings by code point, Python's `<=` on
`str`, used to model `sorted(os.listdir(...))`. -/
def strLe : List Char → List Char → Bool
  | [], _ => true
  | _ :: _, [] => false
  | a :: as, b :: bs => if a = b then strLe as bs else decide (a < b)

/-- Insertion of one entry into a name-sorted entry list. -/
def insertEntry (e : FsEntry) : List FsEntry → List FsEntry
  | [] => [e]
  | x :: xs => if strLe e.name.data x.name.data then e :: x :: xs else x :: insertEntry e xs

/-- `sorted(os.listdir(root_path))`: the directory's entries sorted by
name (entry names in one directory are distinct, so stability and the
exact comparator do not matter beyond producing a permutation). -/
def sortEntries : List FsEntry → List FsEntry
  | [] => []
  | e :: rest => insertEntry e (sortEntries rest)

theorem insertEntry_perm (e : FsEntry) (l : List FsEntry) :
    List.Perm (insertEntry e l) (e :: l) := by
  induction l with
  | nil => simp [insertEntry]
  | cons x xs ih =>
    simp only [insertEntry]
    by_cases h : strLe e.name.data x.name.data
    · simp [h]
    · simp only [h]
      exact List.Perm.trans (List.Perm.cons x ih) (List.Perm.swap e x xs)

theorem sortEntries_perm (l : List FsEntry) : List.Perm (sortEntries l) l := by
  induction l with
  | nil => simp [sortEntries]
  | cons e rest ih =>
    exact List.Perm.trans (insertEntry_perm e (sortEntries rest)) (List.Perm.cons e ih)

theorem perm_sizeOf_eq {l₁ l₂ : List FsEntry} (h : List.Perm l₁ l₂) :
    sizeOf l₁ = sizeOf l₂ := by
  induction h with
  | nil => rfl
  | cons x _ ih => simp [ih]
  | swap x y l => simp; omega
  | trans _ _ ih₁ ih₂ => omega

theorem sizeOf_sortEntries (l : List FsEntry) : sizeOf (sortEntries l) = sizeOf l :=
  perm_sizeOf_eq (sortEntries_perm l)

/-- `rel_path = f"{_rel_prefix}{entry}" if _rel_prefix else entry`. -/
def mkRel (pre entry : String) : String :=
  if pre = "" then entry else pre ++ entry

/-- `_rel_prefix.rstrip("/") or "."`: Python's `or` takes the right operand
when the left is the empty (falsy) string. -/
def orDot (s : String) : String :=
  if s = "" then "." else s

mutual
/-- `build_tree` of src/traversal.py, for a directory whose basename is
`name` and whose observable entries are `entries`.  (Python resolves
`root_name` with `os.path.basename(os.path.abspath(root_path))` and finds
the children by re-listing the path; the filesystem input carries both.) -/
def build_tree (name : String) (entries : List FsEntry) (pats : List String)
    (relPre : String) : FileNode :=
  FileNode.mk name "directory" (orDot (rstripSlashes relPre)) "" none none none
    (some (buildChildren pats relPre (sortEntries entries)))
termination_by 2 * sizeOf entries + 1
decreasing_by have h := sizeOf_sortEntries entries; omega

/-- The body of `build_tree`'s `for entry in entries:` loop: skip ignored
names, turn files into leaf nodes, recurse into directories and overwrite
the child's `name`/`path` as the Python code does. -/
def buildChildren (pats : List String) (relPre : String) : List FsEntry → List FileNode
  | [] => []
  | e :: rest =>
    if should_ignore e.name pats then buildChildren pats relPre rest
    else
      match e with
      | .file nm sz =>
        FileNode.mk nm "file" (mkRel relPre nm) "" (some sz) none none none
          :: buildChildren pats relPre rest
      | .dir nm sub =>
        (FileNode.setNamePath (build_tree nm sub pats (mkRel relPre nm ++ "/"))
            nm (mkRel relPre nm))
          :: buildChildren pats relPre rest
termination_by l => 2 * sizeOf l
decreasing_by all_goals (simp <;> omega)
end

/-! ## src/traversal.py: bottom-up scheduling -/

mutual
/-- The `_collect` helper of `get_levels_bottom_up`: the sequence of
`levels[depth].append(node)` events, in execution order, as (node, depth)
pairs.  Only directory nodes are appended, and recursion descends only
below directory nodes (`if node.children:` guards the loop; iterating an
empty list is a no-op, so `None` and `[]` coincide). -/
def collectDirs : FileNode → Nat → List (FileNode × Nat)
  | .mk n t p d sb sk sr cs, depth =>
    if t = "directory" then
      (FileNode.mk n t p d sb sk sr cs, depth) ::
        (match cs with
         | none => []
         | some l => collectDirsL l (depth + 1))
    else []

def collectDirsL : List FileNode → Nat → List (FileNode × Nat)
  | [], _ => []
  | c :: rest, depth => collectDirs c depth ++ collectDirsL rest depth
end

/-- `levels[d]` after `_collect` finishes: a `defaultdict(list)` groups the
append events by key, preserving per-key insertion order. -/
def levelAt (root : FileNode) (d : Nat) : List FileNode :=
  ((collectDirs root 0).filter (fun p => p.2 == d)).map Prod.fst

/-- `max(levels.keys())` (meaningful only when some append happened). -/
def maxDepthOf (root : FileNode) : Nat :=
  ((collectDirs root 0).map Prod.snd).foldr max 0

/-- `get_levels_bottom_up` of src/traversal.py:
`[levels[d] for d in range(max_depth, -1, -1)]`, and `[]` when no
directory node was collected. -/
def get_levels_bottom_up (root : FileNode) : List (List FileNode) :=
  match collectDirs root 0 with
  | [] => []
  | _ => ((List.range (maxDepthOf root + 1)).reverse).map (levelAt root)

/-- `walk_bottom_up` of src/traversal.py: the generator yields each level's
nodes in order, deepest level first. -/
def walk_bottom_up (root : FileNode) : List FileNode :=
  (get_levels_bottom_up root).flatten

/-! ## src/fileio.py: binary detection and truncated reading -/

/-- `MAX_FILE_SIZE_BYTES` of src/config.py. -/
def MAX_FILE_SIZE_BYTES : Nat := 100000

/-- `TRUNCATED_READ_BYTES` of src/config.py. -/
def TRUNCATED_READ_BYTES : Nat := 8000

/-- `_BINARY_MIME_PREFIXES` of src/fileio.py. -/
def BINARY_MIME_STARTS : List String :=
  ["image/", "audio/", "video/", "application/octet-stream"]

/-- The MIME test of `is_binary_file`:
`mime and any(mime.startswith(p) for p in _BINARY_MIME_PREFIXES)`.
`mime` is what `mimetypes.guess_type` returned for the path: `None` (and
the empty string) is falsy. -/
def mimeLooksBinary (mime : Option String) : Bool :=
  match mime with
  | none => false
  | some m => BINARY_MIME_STARTS.any (fun p => pyStartsWith m p)

/-- `is_binary_file` of src/fileio.py.  The file itself is an input:
`mime` is the extension-guessed MIME type and `bytesRead` the file's byte
content (`none` when `open`/`read` raises `OSError`; bytes are 0..255
values).  The code reads the first 8192 bytes and tests for a null byte;
on `OSError` it returns `True` ("if we can't read it, treat as binary"). -/
def is_binary_file (mime : Option String) (bytesRead : Option (List Nat)) : Bool :=
  if mimeLooksBinary mime then true
  else
    match bytesRead with
    | none => true
    | some bs => (bs.take 8192).contains 0

/-- `read_file_content` of src/fileio.py.  `size` is `os.path.getsize`,
`text` the file's decoded text (the function is only reached when decoding
succeeds; a `UnicodeDecodeError`/`OSError` is handled by the callers).
Python's text-mode `f.read(n)` returns at most `n` characters. -/
def read_file_content (size : Nat) (text : String)
    (max_bytes : Nat := MAX_FILE_SIZE_BYTES)
    (truncate_to : Nat := TRUNCATED_READ_BYTES) : String × Bool :=
  let was_truncated : Bool := decide (size > max_bytes)
  let read_size := if was_truncated then truncate_to else size
  (⟨text.data.take read_size⟩, was_truncated)

/-! ## src/llm.py: the request executor `_call_llm` -/

/-- The outcome of one `client.chat.completions.create` attempt,
classified by which `except` clause of `_call_llm` matches it: success;
a `RateLimitError` (first clause); any other `APIError` or an
`APITimeoutError` (second clause) — in the openai v1 SDK this includes a
malformed request's `BadRequestError`, which subclasses `APIError`; or
an exception matching neither clause (a non-API failure), which
`_call_llm` does not handle at all. -/
inductive LlmOutcome where
  | success (content : String)
  | rateLimit
  | apiError (msg : String)
  | otherError (msg : String)
deriving DecidableEq

/-- How a `_call_llm` invocation ends: returned text, a raised
`RuntimeError`, or an uncaught exception propagating out. -/
inductive LlmResult where
  | ok (text : String)
  | runtimeError (msg : String)
  | uncaught (msg : String)
deriving DecidableEq

/-- The `for attempt in range(max_retries):` loop of `_call_llm`, from
attempt `k` with `fuel` iterations left.  Returns the result together
with the list of `time.sleep` durations, in order.  The per-attempt
outcome oracle `outcomes` abstracts the remote call.  Note that a
malformed request takes the `.apiError` path (retried with backoff),
because `BadRequestError` is an `APIError` subclass; only an exception
outside both `except` clauses propagates uncaught. -/
def callLlmGo (outcomes : Nat → LlmOutcome) (max_retries : Nat) (k : Nat) :
    Nat → LlmResult × List Nat
  | 0 => (.runtimeError "Max retries exceeded for LLM call", [])
  | fuel + 1 =>
    match outcomes k with
    | .success content => (.ok (pyStrip content), [])
    | .rateLimit =>
      let rest := callLlmGo outcomes max_retries (k + 1) fuel
      (rest.1, (2 ^ k * 5) :: rest.2)
    | .apiError msg =>
      if k = max_retries - 1 then
        (.runtimeError ("OpenAI API error after " ++ toString max_retries
            ++ " attempts: " ++ msg), [])
      else
        let rest := callLlmGo outcomes max_retries (k + 1) fuel
        (rest.1, 2 ^ k :: rest.2)
    | .otherError msg => (.uncaught msg, [])

/-- `_call_llm` of src/llm.py: run the retry loop from attempt 0.
The prompts and model parameters only feed the remote call, which the
outcome oracle abstracts. -/
def call_llm (outcomes : Nat → LlmOutcome) (max_retries : Nat := 3) :
    LlmResult × List Nat :=
  callLlmGo outcomes max_retries 0 max_retries

/-! ## src/llm.py: single-file prompt construction -/

/-- The `truncation_note` string built by `_describe_single_file` when
`was_truncated` holds (an f-string over `node.size_bytes`). -/
def truncation_note (size_bytes : Option Nat) : String :=
  "\n\n[NOTE: This file was truncated. Original size: "
    ++ pyShowOptNat size_bytes
    ++ " bytes. Only the first portion is shown.]"

/-- The `user_prompt` f-string of `_describe_single_file`:
`f"File: {node.path}\n\n```\n{content}\n```{truncation_note}"` where
`truncation_note` is empty unless the content was truncated. -/
def single_file_user_prompt (path content : String) (was_truncated : Bool)
    (size_bytes : Option Nat) : String :=
  "File: " ++ path ++ "\n\n```\n" ++ content ++ "\n```"
    ++ (if was_truncated then truncation_note size_bytes else "")

/-! ## src/llm.py: batch reply parsing and chunk handling -/

/-- The exceptions the `try` block of `_describe_batch_chunk`'s reply
handling can raise: `json.JSONDecodeError` from `json.loads`, and
`IndexError` from `split("\n", 1)[1]` when a reply starting with a fence
has no newline. -/
inductive PyExn where
  | jsonDecodeError
  | indexError
deriving DecidableEq

/-- `except (json.JSONDecodeError, IndexError)`: which exceptions the
handler clause catches. -/
def exceptClauseCatches : PyExn → Bool
  | .jsonDecodeError => true
  | .indexError => true

/-- Result of the `try` block: a parsed mapping or a raised exception. -/
inductive ReplyParse where
  | ok (descriptions : List (String × String))
  | exn (e : PyExn)
deriving DecidableEq

/-- The fence-stripping step:
`if cleaned.startswith("```"): cleaned = cleaned.split("\n", 1)[1].rsplit("```", 1)[0]`. -/
def stripFence (cleaned : String) : Except PyExn String :=
  if pyStartsWith cleaned "```" then
    match afterFirstNewline cleaned.data with
    | none => .error .indexError
    | some rest => .ok ⟨beforeLastOcc ['`', '`', '`'] rest⟩
  else .ok cleaned

/-- The whole `try` block: `cleaned = raw_response.strip()`, fence
stripping, then `descriptions = json.loads(cleaned)`.  `loads` is the
`json.loads` oracle: `none` models a raised `json.JSONDecodeError`. -/
def tryParseReply (loads : String → Option (List (String × String)))
    (raw : String) : ReplyParse :=
  match stripFence (pyStrip raw) with
  | .error e => .exn e
  | .ok cleaned =>
    match loads cleaned with
    | none => .exn .jsonDecodeError
    | some m => .ok m

/-- Python dict lookup `descriptions[node.path]` (with
`node.path in descriptions` ⟺ the result is `some`).  A dict built by
`json.loads` keeps the last binding for a duplicated key. -/
def dictGet (m : List (String × String)) (k : String) : Option String :=
  List.lookup k m.reverse

/-- Reply handling of `_describe_batch_chunk` after `_call_llm` returned
`raw` for a (multi-item) chunk: parse, and either assign mapped
descriptions with per-item fallback, or — when the `try` block raised an
exception the `except` clause catches — fall back to
`_describe_single_file` for every item of the chunk.  `single` is the
`_describe_single_file` oracle (it reads the filesystem and calls the
model); an exception the clause does not catch would propagate
(`.error`). -/
def runChunkReplyHandler (loads : String → Option (List (String × String)))
    (single : FileNode → FileNode) (raw : String)
    (chunk : List (FileNode × String × Bool)) : Except PyExn (List FileNode) :=
  match tryParseReply loads raw with
  | .ok descriptions =>
    .ok (chunk.map (fun nct =>
      match dictGet descriptions nct.1.path with
      | some v => nct.1.setBatchDescription v
      | none => single nct.1))
  | .exn e =>
    if exceptClauseCatches e then
      .ok (chunk.map (fun nct => single nct.1))
    else .error e

/-- `_describe_batch_chunk` of src/llm.py.  A chunk element is the
`(node, content, was_truncated)` tuple built by `describe_files_batch`.
A single-item chunk goes straight to `_describe_single_file` and performs
no batched call; otherwise one batched call is made (reply `raw`) and its
reply handled.  The boolean records whether a batched structured call was
issued. -/
def describeBatchChunk (loads : String → Option (List (String × String)))
    (single : FileNode → FileNode) (raw : String)
    (chunk : List (FileNode × String × Bool)) :
    Except PyExn (List FileNode × Bool) :=
  match chunk with
  | [nct] => .ok ([single nct.1], false)
  | _ => (runChunkReplyHandler loads single raw chunk).map (fun l => (l, true))

/-! ## src/llm.py: describe_files_batch chunking -/

/-- `MAX_CHILDREN_PER_BATCH` of src/config.py. -/
def MAX_CHILDREN_PER_BATCH : Nat := 30

/-- How `describe_files_batch` classifies one file node: binary
(`is_binary_file` true), unreadable (`UnicodeDecodeError` / `OSError`
from `read_file_content`), or readable with its excerpt and truncation
flag.  This abstracts the filesystem interaction per node. -/
inductive ReadOutcome where
  | binary (mime : Option String)
  | readError
  | readable (content : String) (was_truncated : Bool)

/-- The `batchable` list of `describe_files_batch`: readable nodes, in
input order, paired with their content and truncation flag.  (Binary and
unreadable nodes receive their skip placeholder in the same loop and are
excluded from every remote call.) -/
def batchable (classify : FileNode → ReadOutcome) (nodes : List FileNode) :
    List (FileNode × String × Bool) :=
  nodes.filterMap (fun n =>
    match classify n with
    | .readable c t => some (n, c, t)
    | _ => none)

/-- The `for i in range(0, len(batchable), MAX_CHILDREN_PER_BATCH):`
slicing of `describe_files_batch`: consecutive slices
`batchable[i : i + MAX_CHILDREN_PER_BATCH]`. -/
def chunked : List (FileNode × String × Bool) → List (List (FileNode × String × Bool))
  | [] => []
  | x :: xs =>
    ((x :: xs).take MAX_CHILDREN_PER_BATCH)
      :: chunked ((x :: xs).drop MAX_CHILDREN_PER_BATCH)
termination_by l => l.length
decreasing_by simp [MAX_CHILDREN_PER_BATCH]; omega

/-- The chunk sequence `describe_files_batch` iterates, passing each
chunk to `_describe_batch_chunk`. -/
def describe_files_batch_chunks (classify : FileNode → ReadOutcome)
    (nodes : List FileNode) : List (List (FileNode × String × Bool)) :=
  chunked (batchable classify nodes)

/-! ## Claim C6: binary classification -/

/-- The null-byte signal as the claim describes it: present only when the
leading 8192-byte sample could be read and contains a null byte. -/
def sampleHasNull (bytesRead : Option (List Nat)) : Bool :=
  match bytesRead with
  | none => false
  | some bs => (bs.take 8192).contains 0

/-- Claim C6, counterexample.  For a file whose MIME type is unknown and
whose sample read fails with `OSError`, neither of the claim's two binary
signals (binary MIME prefix, null byte in the sample) holds, yet
`is_binary_file` classifies the file as binary: the code returns `True`
on a read failure instead of reporting a distinct read error. -/
theorem c6_counterexample :
    is_binary_file none none = true
      ∧ (mimeLooksBinary none || sampleHasNull none) = false := by
  constructor <;> rfl

/-- Claim C6, amended: `is_binary_file` returns true exactly when the
extension-guessed MIME type starts with one of the binary prefixes, OR the
OS-level sample read failed (the code treats an unreadable file as
binary), OR the leading 8192-byte sample contains a null byte; the first
two disjuncts short-circuit the rest. -/
theorem c6_is_binary_file (mime : Option String) (bytesRead : Option (List Nat)) :
    is_binary_file mime bytesRead =
      (mimeLooksBinary mime || bytesRead.isNone || sampleHasNull bytesRead) := by
  cases bytesRead <;> cases h : mimeLooksBinary mime <;>
    simp [is_binary_file, sampleHasNull, h]

/-! ## Claim C7: truncated reading and the truncation indicator -/

set_option maxRecDepth 8000 in
/-- Claim C7: `read_file_content` truncates exactly when the file's byte
size exceeds `MAX_FILE_SIZE_BYTES = 100000`, in which case it reads only
the `TRUNCATED_READ_BYTES = 8000`-character prefix; otherwise it reads the
full text (Python `f.read(size)` returns the whole text because a
UTF-8 decode never yields more characters than bytes, the hypothesis
`text.length ≤ size`).  The `_describe_single_file` prompt consists of the
fixed frame plus the truncation note exactly when `was_truncated` holds;
the note is nonempty and contains the word "truncated". -/
theorem c7_read_and_prompt (size : Nat) (text path content : String) (sb : Option Nat) :
    ((read_file_content size text).2 = true ↔ size > MAX_FILE_SIZE_BYTES)
    ∧ (size > MAX_FILE_SIZE_BYTES →
        (read_file_content size text).1 = ⟨text.data.take TRUNCATED_READ_BYTES⟩)
    ∧ (size ≤ MAX_FILE_SIZE_BYTES → text.length ≤ size →
        (read_file_content size text).1 = text)
    ∧ single_file_user_prompt path content true sb
        = single_file_user_prompt path content false sb ++ truncation_note sb
    ∧ single_file_user_prompt path content false sb
        = "File: " ++ path ++ "\n\n```\n" ++ content ++ "\n```"
    ∧ truncation_note sb ≠ ""
    ∧ (∃ pre suf, truncation_note sb = pre ++ "truncated" ++ suf) := by
  refine ⟨?_, ?_, ?_, ?_, ?_, ?_, ?_⟩
  · simp [read_file_content]
  · intro h
    simp [read_file_content, h]
  · intro h hlen
    have hfalse : decide (size > MAX_FILE_SIZE_BYTES) = false := by
      rw [decide_eq_false_iff_not]; omega
    apply String.ext
    simp only [read_file_content, hfalse, Bool.false_eq_true, if_false]
    exact List.take_of_length_le hlen
  · simp [single_file_user_prompt, String.append_assoc]
  · simp [single_file_user_prompt]
  · intro h
    have h2 := congrArg (fun s => s.data.length) h
    simp [truncation_note, String.data_append, List.length_append] at h2
  · refine ⟨"\n\n[NOTE: This file was ",
      ". Original size: " ++ pyShowOptNat sb
        ++ " bytes. Only the first portion is shown.]", ?_⟩
    have hlit : ("\n\n[NOTE: This file was truncated. Original size: " : String)
        = ("\n\n[NOTE: This file was " ++ "truncated") ++ ". Original size: " := by decide
    rw [truncation_note, hlit]
    simp only [String.append_assoc]

/-- Claim C7, witness: a 5-byte file is below the threshold and is read in
full, untruncated. -/
theorem c7_read_and_prompt_witness :
    (read_file_content 5 "ab").1 = "ab" ∧ (read_file_content 5 "ab").2 = false := by
  constructor
  · exact (c7_read_and_prompt 5 "ab" "p" "c" none).2.2.1 (by decide) (by decide)
  · have h := (c7_read_and_prompt 5 "ab" "p" "c" none).1
    rcases hb : (read_file_content 5 "ab").2 with _ | _
    · rfl
    · exact absurd (h.mp hb) (by decide)

/-! ## Claim C5: the retry state machine of `_call_llm` -/

/-- Claim C5, amended: `_call_llm` behaves as the specified retry state
machine EXCEPT for the malformed-request conjunct.  For every attempt
index `k` with fuel remaining: success returns the stripped text at
once; a rate-limit signal sleeps `2^k * 5` seconds and retries; an
`APIError` / `APITimeoutError` — a class that INCLUDES a malformed
request's `BadRequestError` — at an attempt other than the last sleeps
`2^k` seconds and retries; the same error at the last attempt
(`k = max_retries - 1`, default 3 attempts) raises `RuntimeError`, a
hard failure surfaced to the caller.  Malformed requests are therefore
retried with the transient backoff, not propagated immediately; only an
exception matching neither `except` clause propagates uncaught.  The
concrete 3-attempt scenarios instantiate the machine. -/
theorem c5_call_llm (o : Nat → LlmOutcome) (m k fuel : Nat) (t a b c msg : String) :
    (o k = .success t → callLlmGo o m k (fuel + 1) = (.ok (pyStrip t), []))
    ∧ (o k = .rateLimit → callLlmGo o m k (fuel + 1) =
        ((callLlmGo o m (k + 1) fuel).1, 2 ^ k * 5 :: (callLlmGo o m (k + 1) fuel).2))
    ∧ (o k = .apiError msg → k ≠ m - 1 → callLlmGo o m k (fuel + 1) =
        ((callLlmGo o m (k + 1) fuel).1, 2 ^ k :: (callLlmGo o m (k + 1) fuel).2))
    ∧ (o k = .apiError msg → k = m - 1 → callLlmGo o m k (fuel + 1) =
        (.runtimeError ("OpenAI API error after " ++ toString m ++ " attempts: " ++ msg),
          []))
    ∧ (o k = .otherError msg → callLlmGo o m k (fuel + 1) = (.uncaught msg, []))
    ∧ (o 0 = .success t → call_llm o = (.ok (pyStrip t), []))
    ∧ (o 0 = .rateLimit → o 1 = .success t → call_llm o = (.ok (pyStrip t), [5]))
    ∧ (o 0 = .apiError a → o 1 = .apiError b → o 2 = .apiError c →
        call_llm o =
          (.runtimeError ("OpenAI API error after " ++ toString 3 ++ " attempts: " ++ c),
            [1, 2]))
    ∧ (o 0 = .otherError msg → call_llm o = (.uncaught msg, [])) := by
  refine ⟨?_, ?_, ?_, ?_, ?_, ?_, ?_, ?_, ?_⟩
  · intro h; simp [callLlmGo, h]
  · intro h; simp [callLlmGo, h]
  · intro h hne; simp [callLlmGo, h, hne]
  · intro h he; subst he; simp [callLlmGo, h]
  · intro h; simp [callLlmGo, h]
  · intro h; simp [call_llm, callLlmGo, h]
  · intro h0 h1; simp [call_llm, callLlmGo, h0, h1]
  · intro h0 h1 h2; simp [call_llm, callLlmGo, h0, h1, h2]
  · intro h; simp [call_llm, callLlmGo, h]

/-- Claim C5, counterexample.  The claim as stated — "a non-retryable
malformed-request error propagates immediately without consuming the
retry budget" — is false on the code: a malformed request raises
`BadRequestError`, which in the openai v1 SDK subclasses `APIError`, so
`except (APIError, APITimeoutError)` catches it.  A persistent 400
error is retried with the transient backoff (sleeping 1 then 2 seconds)
and consumes the whole 3-attempt budget before surfacing as a
`RuntimeError` — the opposite of immediate propagation. -/
theorem c5_counterexample :
    call_llm (fun _ => LlmOutcome.apiError "Error code: 400") =
      (.runtimeError ("OpenAI API error after " ++ toString 3
        ++ " attempts: " ++ "Error code: 400"), [1, 2]) := by
  decide

/-- Claim C5, witness: one rate-limit signal followed by success yields
the stripped text after a single 5-second sleep. -/
theorem c5_call_llm_witness :
    call_llm (fun k => if k = 0 then LlmOutcome.rateLimit else .success " hi ")
      = (.ok (pyStrip " hi "), [5]) :=
  (c5_call_llm (fun k => if k = 0 then LlmOutcome.rateLimit else .success " hi ")
      3 0 0 " hi " "" "" "" "").2.2.2.2.2.2.1 (by decide) (by decide)

/-! ## Claims C2, C3, C10: batch reply handling -/

/-- Claim C2: when the `try` block of `_describe_batch_chunk` raises (the
reply of a multi-item chunk cannot be parsed), every node of the chunk is
reprocessed through the single-item path, no partial-batch result is
kept, and the handler returns normally (`.ok`), so the failure is not
escalated past the chunk. -/
theorem c2_batch_parse_failure (loads : String → Option (List (String × String)))
    (single : FileNode → FileNode) (raw : String)
    (x y : FileNode × String × Bool) (rest : List (FileNode × String × Bool))
    (e : PyExn) (h : tryParseReply loads raw = .exn e) :
    describeBatchChunk loads single raw (x :: y :: rest) =
      .ok ((x :: y :: rest).map (fun nct => single nct.1), true) := by
  cases e <;>
    simp [describeBatchChunk, runChunkReplyHandler, h, exceptClauseCatches,
      Except.map]

/-- Claim C2, witness: a two-item chunk whose reply fails to parse has
both items described individually. -/
theorem c2_batch_parse_failure_witness :
    describeBatchChunk (fun _ => none) (fun n => n) "not json"
        [(FileNode.mk "a" "file" "a" "" (some 1) none none none, "ca", false),
         (FileNode.mk "b" "file" "b" "" (some 1) none none none, "cb", false)] =
      .ok ([FileNode.mk "a" "file" "a" "" (some 1) none none none,
            FileNode.mk "b" "file" "b" "" (some 1) none none none], true) := by
  have := c2_batch_parse_failure (fun _ => none) (fun n => n) "not json"
    (FileNode.mk "a" "file" "a" "" (some 1) none none none, "ca", false)
    (FileNode.mk "b" "file" "b" "" (some 1) none none none, "cb", false)
    [] PyExn.jsonDecodeError (by decide)
  simpa using this

/-- Claim C3: when the `try` block parses the reply as a mapping, each
chunk node whose path is a key receives the mapped value as its
description and is marked not-skipped (`skipped = False`), and exactly
the nodes whose path is absent fall back to the single-item path; the
others keep their batch-derived descriptions. -/
theorem c3_batch_parse_success (loads : String → Option (List (String × String)))
    (single : FileNode → FileNode) (raw : String)
    (x y : FileNode × String × Bool) (rest : List (FileNode × String × Bool))
    (m : List (String × String)) (h : tryParseReply loads raw = .ok m) :
    describeBatchChunk loads single raw (x :: y :: rest) =
      .ok ((x :: y :: rest).map (fun nct =>
        match dictGet m nct.1.path with
        | some v => nct.1.setBatchDescription v
        | none => single nct.1), true)
    ∧ (∀ (n : FileNode) (v : String),
        (n.setBatchDescription v).description = v
        ∧ (n.setBatchDescription v).skipped = some false
        ∧ (n.setBatchDescription v).path = n.path
        ∧ (n.setBatchDescription v).name = n.name
        ∧ (n.setBatchDescription v).type = n.type
        ∧ (n.setBatchDescription v).children = n.children) := by
  constructor
  · simp [describeBatchChunk, runChunkReplyHandler, h, Except.map]
  · intro n v
    cases n
    simp [FileNode.setBatchDescription, FileNode.description, FileNode.skipped,
      FileNode.path, FileNode.name, FileNode.type, FileNode.children]

/-- Claim C3, witness: a parsed reply containing the path of the first
item but not the second assigns the first a batch description and sends
only the second through the single-item path. -/
theorem c3_batch_parse_success_witness :
    describeBatchChunk (fun _ => some [("a", "descA")]) (fun n => n) "whatever"
        [(FileNode.mk "a" "file" "a" "" (some 1) none none none, "ca", false),
         (FileNode.mk "b" "file" "b" "" (some 1) none none none, "cb", false)] =
      .ok ([FileNode.mk "a" "file" "a" "descA" (some 1) (some false) none none,
            FileNode.mk "b" "file" "b" "" (some 1) none none none], true) := by
  have := (c3_batch_parse_success (fun _ => some [("a", "descA")]) (fun n => n)
    "whatever"
    (FileNode.mk "a" "file" "a" "" (some 1) none none none, "ca", false)
    (FileNode.mk "b" "file" "b" "" (some 1) none none none, "cb", false)
    [] [("a", "descA")] (by decide)).1
  simpa [dictGet, FileNode.path, FileNode.setBatchDescription] using this

/-- Claim C10: the reply handling of `_describe_batch_chunk` is total.
Every exception the `try` block can raise (`json.JSONDecodeError` from
parsing, `IndexError` from stripping a fence with no newline) is caught
by the `except` clause, so the handler never propagates an exception and
every unparseable reply is routed to the per-item fallback; in
particular, a reply that starts with a code fence but contains no
newline raises exactly the caught `IndexError`. -/
theorem c10_reply_handling_total (loads : String → Option (List (String × String)))
    (single : FileNode → FileNode) (raw : String)
    (chunk : List (FileNode × String × Bool)) :
    (∀ e, tryParseReply loads raw = .exn e → exceptClauseCatches e = true)
    ∧ (∃ l, runChunkReplyHandler loads single raw chunk = .ok l)
    ∧ (pyStartsWith (pyStrip raw) "```" = true →
        afterFirstNewline (pyStrip raw).data = none →
        tryParseReply loads raw = .exn .indexError) := by
  refine ⟨?_, ?_, ?_⟩
  · intro e _
    cases e <;> rfl
  · rcases htp : tryParseReply loads raw with m | e
    · exact ⟨chunk.map (fun nct =>
        match dictGet m nct.1.path with
        | some v => nct.1.setBatchDescription v
        | none => single nct.1), by simp [runChunkReplyHandler, htp]⟩
    · cases e <;>
        exact ⟨chunk.map (fun nct => single nct.1),
          by simp [runChunkReplyHandler, htp, exceptClauseCatches]⟩
  · intro h1 h2
    simp [tryParseReply, stripFence, h1, h2]

/-- Claim C10, witness: the reply "```x" (a fence with no newline) raises
`IndexError` inside the `try` block, and the handler still returns
normally. -/
theorem c10_reply_handling_total_witness :
    tryParseReply (fun _ => none) "```x" = .exn .indexError :=
  (c10_reply_handling_total (fun _ => none) (fun n => n) "```x" []).2.2
    (by decide) (by decide)

/-! ## Claim C4: chunk splitting -/

theorem chunked_flatten (l : List (FileNode × String × Bool)) :
    (chunked l).flatten = l := by
  induction l using chunked.induct with
  | case1 => simp [chunked]
  | case2 x xs ih =>
    rw [chunked]
    simp only [List.flatten_cons, ih, List.take_append_drop]

theorem chunked_mem (l : List (FileNode × String × Bool))
    (c : List (FileNode × String × Bool)) (hc : c ∈ chunked l) :
    c ≠ [] ∧ c.length ≤ MAX_CHILDREN_PER_BATCH := by
  induction l using chunked.induct with
  | case1 => simp [chunked] at hc
  | case2 x xs ih =>
    rw [chunked] at hc
    rcases List.mem_cons.mp hc with hh | ht
    · subst hh
      refine ⟨by simp [MAX_CHILDREN_PER_BATCH], ?_⟩
      exact List.length_take_le MAX_CHILDREN_PER_BATCH (x :: xs)
    · exact ih ht

theorem chunked_length (l : List (FileNode × String × Bool)) :
    (chunked l).length =
      (l.length + (MAX_CHILDREN_PER_BATCH - 1)) / MAX_CHILDREN_PER_BATCH := by
  induction l using chunked.induct with
  | case1 => simp [chunked, MAX_CHILDREN_PER_BATCH]
  | case2 x xs ih =>
    rw [chunked]
    simp only [List.length_cons, MAX_CHILDREN_PER_BATCH] at ih ⊢
    rw [ih]
    simp only [List.length_drop, List.length_cons]
    omega

/-- Claim C4: `describe_files_batch` splits the readable (batchable) file
nodes, in order, into consecutive chunks of at most
`MAX_CHILDREN_PER_BATCH = 30` items: concatenating the chunks gives back
the batchable list, every chunk is nonempty with at most 30 items, the
number of chunks is `ceil(n / 30)`, and 31 readable files produce chunks
of sizes 30 and 1.  A chunk with exactly one item is handed directly to
the single-item path and performs no batched structured call. -/
theorem c4_chunk_split (classify : FileNode → ReadOutcome) (nodes : List FileNode)
    (loads : String → Option (List (String × String)))
    (single : FileNode → FileNode) (raw : String)
    (nct : FileNode × String × Bool) :
    ((describe_files_batch_chunks classify nodes).flatten = batchable classify nodes)
    ∧ (∀ c ∈ describe_files_batch_chunks classify nodes,
        c ≠ [] ∧ c.length ≤ MAX_CHILDREN_PER_BATCH)
    ∧ ((describe_files_batch_chunks classify nodes).length =
        ((batchable classify nodes).length + (MAX_CHILDREN_PER_BATCH - 1))
          / MAX_CHILDREN_PER_BATCH)
    ∧ ((batchable classify nodes).length = 31 →
        (describe_files_batch_chunks classify nodes).map List.length = [30, 1])
    ∧ (describeBatchChunk loads single raw [nct] = .ok ([single nct.1], false)) := by
  refine ⟨chunked_flatten _, fun c hc => chunked_mem _ c hc, chunked_length _, ?_, ?_⟩
  · intro h31
    unfold describe_files_batch_chunks
    rcases hb : batchable classify nodes with _ | ⟨x, xs⟩
    · rw [hb] at h31; simp at h31
    · rw [hb] at h31
      have hlen : xs.length = 30 := by simpa using h31
      rw [chunked]
      have hdrop : ((x :: xs).drop MAX_CHILDREN_PER_BATCH).length = 1 := by
        simp [MAX_CHILDREN_PER_BATCH]
        omega
      rcases List.length_eq_one.mp hdrop with ⟨a, ha⟩
      rw [ha, chunked]
      have hnil : ([a].drop MAX_CHILDREN_PER_BATCH) = ([] : List (FileNode × String × Bool)) := by
        simp [MAX_CHILDREN_PER_BATCH]
      rw [hnil, chunked]
      simp [MAX_CHILDREN_PER_BATCH, List.length_take, hlen]
  · simp [describeBatchChunk]

/-- Claim C4, witness: 31 readable files produce two chunks, of 30 and 1
items. -/
theorem c4_chunk_split_witness :
    (describe_files_batch_chunks (fun _ => ReadOutcome.readable "c" false)
        (List.replicate 31 (FileNode.mk "a" "file" "a" "" none none none none))).map
      List.length = [30, 1] :=
  (c4_chunk_split (fun _ => ReadOutcome.readable "c" false)
      (List.replicate 31 (FileNode.mk "a" "file" "a" "" none none none none))
      (fun _ => none) (fun n => n) ""
      (FileNode.mk "a" "file" "a" "" none none none none, "c", false)).2.2.2.1
    (by simp [batchable, List.filterMap_replicate])

/-! ## Claim C9: serialization omits exactly the unset fields -/

/-- The keys of a serialized JSON object. -/
def dictKeys (l : List (String × Json)) : List String := l.map Prod.fst

/-- Strong induction over entry lists, descending into the entry lists of
member directories — the recursion scheme of `build_tree`. -/
theorem FsEntry.entriesInd {motive : List FsEntry → Prop}
    (step : ∀ es, (∀ nm sub, FsEntry.dir nm sub ∈ es → motive sub) → motive es) :
    ∀ es, motive es := by
  have key : ∀ n es, sizeOf es ≤ n → motive es := by
    intro n
    induction n with
    | zero =>
      intro es h
      exact absurd h (by cases es <;> simp)
    | succ n ih =>
      intro es h
      apply step
      intro nm sub hmem
      apply ih
      have h1 : sizeOf (FsEntry.dir nm sub) < sizeOf es := List.sizeOf_lt_of_mem hmem
      have h2 : sizeOf sub < sizeOf (FsEntry.dir nm sub) := by simp
      omega
  intro es
  exact key (sizeOf es) es le_rfl

theorem mem_sortEntries {e : FsEntry} {l : List FsEntry} (h : e ∈ sortEntries l) :
    e ∈ l :=
  (sortEntries_perm l).subset h

theorem mem_allNodesL {m : FileNode} {cs : List FileNode} :
    m ∈ FileNode.allNodesL cs ↔ ∃ c ∈ cs, m ∈ c.allNodes := by
  induction cs with
  | nil => simp [FileNode.allNodesL]
  | cons c rest ih => simp [FileNode.allNodesL, ih]

theorem dir_ne_file : ("directory" : String) ≠ "file" := by decide

theorem file_ne_dir : ("file" : String) ≠ "directory" := by decide

/-- The structural shape `build_tree` guarantees for every node: a
directory node has no `size_bytes` and has its `children` list set; a
file node has no `children`; there is no third node type. -/
def NodeShapeOk (m : FileNode) : Prop :=
  (m.type = "directory" → m.size_bytes = none ∧ ∃ cs, m.children = some cs)
  ∧ (m.type = "file" → m.children = none)
  ∧ (m.type = "directory" ∨ m.type = "file")

theorem allNodes_build_shape (es : List FsEntry) :
    ∀ (name : String) (pats : List String) (pre : String),
      ∀ m ∈ (build_tree name es pats pre).allNodes, NodeShapeOk m := by
  induction es using FsEntry.entriesInd with
  | step es IH =>
    intro name pats pre m hm
    rw [build_tree] at hm
    have hsub : ∀ nm sub, FsEntry.dir nm sub ∈ sortEntries es →
        ∀ (name' : String) (pre' : String),
          ∀ m' ∈ (build_tree name' sub pats pre').allNodes, NodeShapeOk m' := by
      intro nm sub hmem name' pre'
      exact IH nm sub (mem_sortEntries hmem) name' pats pre'
    revert hm
    generalize sortEntries es = ℓ at hsub
    simp only [FileNode.allNodes]
    intro hm
    rcases List.mem_cons.mp hm with hroot | htail
    · subst hroot
      exact ⟨fun _ => ⟨rfl, ⟨_, rfl⟩⟩,
        fun hfile => absurd hfile (by simp only [FileNode.type]; exact dir_ne_file),
        Or.inl rfl⟩
    · rw [mem_allNodesL] at htail
      rcases htail with ⟨c, hc, hmc⟩
      clear hm
      induction ℓ with
      | nil => simp [buildChildren.eq_def] at hc
      | cons e rest ihrest =>
        have hsub' : ∀ nm sub, FsEntry.dir nm sub ∈ rest →
            ∀ (name' : String) (pre' : String),
              ∀ m' ∈ (build_tree name' sub pats pre').allNodes, NodeShapeOk m' :=
          fun nm sub hmem => hsub nm sub (List.mem_cons_of_mem e hmem)
        rw [buildChildren.eq_def] at hc
        simp only [] at hc
        by_cases hig : should_ignore e.name pats
        · rw [if_pos hig] at hc
          exact ihrest hsub' hc
        · rw [if_neg hig] at hc
          rcases e with ⟨nm, sz⟩ | ⟨nm, sub⟩
          · rcases List.mem_cons.mp hc with hh | ht
            · subst hh
              simp only [FileNode.allNodes] at hmc
              rcases List.mem_cons.mp hmc with h1 | h2
              · subst h1
                exact ⟨fun hd =>
                  absurd hd (by simp only [FileNode.type]; exact file_ne_dir),
                  fun _ => rfl, Or.inr rfl⟩
              · simp [FileNode.allNodesL] at h2
            · exact ihrest hsub' ht
          · rcases List.mem_cons.mp hc with hh | ht
            · subst hh
              have hbuild := hsub nm sub (List.mem_cons_self _ _) nm
                (mkRel pre nm ++ "/")
              rw [build_tree] at hbuild hmc
              simp only [FileNode.setNamePath, FileNode.allNodes] at hmc
              rcases List.mem_cons.mp hmc with h1 | h2
              · subst h1
                exact ⟨fun _ => ⟨rfl, ⟨_, rfl⟩⟩,
                  fun hfile => absurd hfile (by simp only [FileNode.type]; exact dir_ne_file),
                  Or.inl rfl⟩
              · apply hbuild
                simp only [FileNode.allNodes]
                exact List.mem_cons_of_mem _ h2
            · exact ihrest hsub' ht

/-- Claim C9, counterexample.  The tree `build_tree` produces for an empty
directory (serialized unchanged by the dry-run path) carries an empty
`description` string and an empty `children` list, and `to_dict` emits
both: an emitted field can hold an empty value, because Python only skips
fields that are `None`. -/
theorem c9_counterexample :
    ("description", Json.str "") ∈ FileNode.to_dict (build_tree "r" [] [] "")
    ∧ ("children", Json.arr []) ∈ FileNode.to_dict (build_tree "r" [] [] "") := by
  rw [build_tree]
  constructor <;>
    simp [sortEntries, buildChildren, FileNode.to_dict, FileNode.to_dictList]

/-- Claim C9, amended: `to_dict` emits exactly the fields that are set
(not `None`): the four string fields always, and each optional field iff
it is set — so an emitted field can still hold an empty value (see the
counterexample), but no `None` field is ever emitted.  In every tree
produced by `build_tree`, a directory node carries no `size_bytes` key
and a file node carries no `children` key (and every node is one of the
two types). -/
theorem c9_to_dict_keys (n : FileNode) :
    ("name" ∈ dictKeys n.to_dict ∧ "type" ∈ dictKeys n.to_dict
      ∧ "path" ∈ dictKeys n.to_dict ∧ "description" ∈ dictKeys n.to_dict)
    ∧ ("size_bytes" ∈ dictKeys n.to_dict ↔ n.size_bytes ≠ none)
    ∧ ("skipped" ∈ dictKeys n.to_dict ↔ n.skipped ≠ none)
    ∧ ("skip_reason" ∈ dictKeys n.to_dict ↔ n.skip_reason ≠ none)
    ∧ ("children" ∈ dictKeys n.to_dict ↔ n.children ≠ none)
    ∧ (∀ (name : String) (es : List FsEntry) (pats : List String) (pre : String),
        ∀ m ∈ (build_tree name es pats pre).allNodes,
          (m.type = "directory" → "size_bytes" ∉ dictKeys m.to_dict)
          ∧ (m.type = "file" → "children" ∉ dictKeys m.to_dict)) := by
  have hkeys : ∀ m : FileNode,
      ("size_bytes" ∈ dictKeys m.to_dict ↔ m.size_bytes ≠ none)
      ∧ ("children" ∈ dictKeys m.to_dict ↔ m.children ≠ none) := by
    intro m
    rcases m with ⟨n', t', p', d', sb, sk, sr, cs⟩
    cases sb <;> cases sk <;> cases sr <;> cases cs <;>
      simp [FileNode.to_dict, dictKeys, FileNode.size_bytes, FileNode.children]
  rcases n with ⟨n', t', p', d', sb, sk, sr, cs⟩
  refine ⟨?_, ?_, ?_, ?_, ?_, ?_⟩
  · cases sb <;> cases sk <;> cases sr <;> cases cs <;>
      simp [FileNode.to_dict, dictKeys]
  · cases sb <;> cases sk <;> cases sr <;> cases cs <;>
      simp [FileNode.to_dict, dictKeys, FileNode.size_bytes]
  · cases sb <;> cases sk <;> cases sr <;> cases cs <;>
      simp [FileNode.to_dict, dictKeys, FileNode.skipped]
  · cases sb <;> cases sk <;> cases sr <;> cases cs <;>
      simp [FileNode.to_dict, dictKeys, FileNode.skip_reason]
  · cases sb <;> cases sk <;> cases sr <;> cases cs <;>
      simp [FileNode.to_dict, dictKeys, FileNode.children]
  · intro name es pats pre m hm
    have hshape := allNodes_build_shape es name pats pre m hm
    constructor
    · intro hdir
      rw [(hkeys m).1]
      simp [(hshape.1 hdir).1]
    · intro hfile
      rw [(hkeys m).2]
      simp [hshape.2.1 hfile]

/-- Claim C9, witness: in the tree built for an empty directory, the root
is a directory node and its serialization has no `size_bytes` key. -/
theorem c9_to_dict_keys_witness :
    "size_bytes" ∉ dictKeys (build_tree "r" [] [] "").to_dict := by
  have hmem : build_tree "r" [] [] "" ∈ (build_tree "r" [] [] "").allNodes := by
    rw [build_tree]
    simp [FileNode.allNodes]
  have htype : (build_tree "r" [] [] "").type = "directory" := by
    rw [build_tree]; rfl
  exact ((c9_to_dict_keys (build_tree "r" [] [] "")).2.2.2.2.2
    "r" [] [] "" (build_tree "r" [] [] "") hmem).1 htype

/-! ## Claim C1: infrastructure on trees and the collect traversal -/

theorem FileNode.sizeOf_childList_lt {c n : FileNode} (h : c ∈ n.childList) :
    sizeOf c < sizeOf n := by
  rcases n with ⟨nm, t, p, d, sb, sk, sr, _ | cs⟩
  · simp [FileNode.childList] at h
  · simp only [FileNode.childList] at h
    have h1 := List.sizeOf_lt_of_mem h
    simp
    omega

/-- Structural induction over `FileNode` through the (optional) child
list. -/
theorem FileNode.nodeInd {motive : FileNode → Prop}
    (step : ∀ n : FileNode, (∀ c ∈ n.childList, motive c) → motive n) :
    ∀ n, motive n := by
  have key : ∀ k n, sizeOf n ≤ k → motive n := by
    intro k
    induction k with
    | zero =>
      intro n h
      exact absurd h (by rcases n with ⟨_, _, _, _, _, _, _, _⟩; simp)
    | succ k ih =>
      intro n h
      apply step
      intro c hc
      apply ih
      have := FileNode.sizeOf_childList_lt hc
      omega
  intro n
  exact key (sizeOf n) n le_rfl

theorem allNodes_eq (n : FileNode) :
    n.allNodes = n :: FileNode.allNodesL n.childList := by
  rcases n with ⟨nm, t, p, d, sb, sk, sr, _ | cs⟩ <;> rfl

theorem mem_allNodes_self (n : FileNode) : n ∈ n.allNodes := by
  rw [allNodes_eq]
  exact List.mem_cons_self _ _

theorem mem_allNodes_trans {root A x : FileNode} (hA : A ∈ root.allNodes)
    (hx : x ∈ A.allNodes) : x ∈ root.allNodes := by
  induction root using FileNode.nodeInd with
  | step n IH =>
    rw [allNodes_eq] at hA ⊢
    rcases List.mem_cons.mp hA with h1 | h2
    · subst h1
      rw [← allNodes_eq]
      exact hx
    · rcases mem_allNodesL.mp h2 with ⟨c, hc, hAc⟩
      exact List.mem_cons_of_mem _ (mem_allNodesL.mpr ⟨c, hc, IH c hc hAc⟩)

theorem collectDirs_eq (n : FileNode) (d : Nat) :
    collectDirs n d =
      if n.type = "directory" then (n, d) :: collectDirsL n.childList (d + 1)
      else [] := by
  rcases n with ⟨nm, t, p, de, sb, sk, sr, _ | cs⟩ <;>
    simp [collectDirs, FileNode.type, FileNode.childList, collectDirsL]

theorem mem_collectDirsL {p : FileNode × Nat} {cs : List FileNode} {d : Nat} :
    p ∈ collectDirsL cs d ↔ ∃ c ∈ cs, p ∈ collectDirs c d := by
  induction cs with
  | nil => simp [collectDirsL]
  | cons c rest ih => simp [collectDirsL, ih]

theorem collectDirs_fst_dir {n : FileNode} :
    ∀ (d : Nat), ∀ p ∈ collectDirs n d, p.1.type = "directory" := by
  induction n using FileNode.nodeInd with
  | step n IH =>
    intro d p hp
    rw [collectDirs_eq] at hp
    by_cases ht : n.type = "directory"
    · rw [if_pos ht] at hp
      rcases List.mem_cons.mp hp with h1 | h2
      · subst h1; exact ht
      · rcases mem_collectDirsL.mp h2 with ⟨c, hc, hpc⟩
        exact IH c hc (d + 1) p hpc
    · rw [if_neg ht] at hp
      simp at hp

theorem collectDirs_sub {root : FileNode} :
    ∀ (d0 : Nat) (A : FileNode) (dA : Nat), (A, dA) ∈ collectDirs root d0 →
      ∀ q ∈ collectDirs A dA, q ∈ collectDirs root d0 := by
  induction root using FileNode.nodeInd with
  | step n IH =>
    intro d0 A dA hA q hq
    rw [collectDirs_eq] at hA ⊢
    by_cases ht : n.type = "directory"
    · rw [if_pos ht] at hA ⊢
      rcases List.mem_cons.mp hA with h1 | h2
      · rw [Prod.mk.injEq] at h1
        rcases h1 with ⟨h1a, h1b⟩
        subst h1a
        subst h1b
        rw [collectDirs_eq, if_pos ht] at hq
        exact hq
      · rcases mem_collectDirsL.mp h2 with ⟨c, hc, hpc⟩
        exact List.mem_cons_of_mem _
          (mem_collectDirsL.mpr ⟨c, hc, IH c hc (d0 + 1) A dA hpc q hq⟩)
    · rw [if_neg ht] at hA
      simp at hA

theorem childList_eq_nil {n : FileNode} (h : n.children = none) :
    n.childList = [] := by
  rcases n with ⟨_, _, _, _, _, _, _, _ | cs⟩
  · rfl
  · simp [FileNode.children] at h

theorem child_mem_allNodes {c n : FileNode} (h : c ∈ n.childList) :
    c ∈ n.allNodes := by
  rw [allNodes_eq]
  exact List.mem_cons_of_mem _ (mem_allNodesL.mpr ⟨c, h, mem_allNodes_self c⟩)

theorem le_foldr_max {x : Nat} : ∀ {l : List Nat}, x ∈ l → x ≤ l.foldr max 0 := by
  intro l
  induction l with
  | nil => intro h; simp at h
  | cons a rest ih =>
    intro h
    rcases List.mem_cons.mp h with h1 | h2
    · subst h1
      exact le_max_left _ _
    · exact le_trans (ih h2) (le_max_right _ _)

theorem collectDirs_snd_le {root : FileNode} {p : FileNode × Nat}
    (hp : p ∈ collectDirs root 0) : p.2 ≤ maxDepthOf root :=
  le_foldr_max (List.mem_map_of_mem Prod.snd hp)

/-- Every directory node of the tree is appended by `_collect`, at a depth
strictly below the depths of the nodes of its subtrees. -/
theorem descendant_in_collect {n : FileNode} :
    ∀ (d0 : Nat) (B : FileNode), B ∈ n.allNodes → B.type = "directory" →
      (∀ x ∈ n.allNodes, x.type = "directory" ∨ x.children = none) →
      ∃ e, (B, d0 + e) ∈ collectDirs n d0 := by
  induction n using FileNode.nodeInd with
  | step n IH =>
    intro d0 B hB hBdir hwf
    rw [allNodes_eq] at hB
    rcases List.mem_cons.mp hB with h1 | h2
    · subst h1
      refine ⟨0, ?_⟩
      rw [Nat.add_zero, collectDirs_eq, if_pos hBdir]
      exact List.mem_cons_self _ _
    · rcases mem_allNodesL.mp h2 with ⟨c, hc, hBc⟩
      have hndir : n.type = "directory" := by
        rcases hwf n (mem_allNodes_self n) with h | h
        · exact h
        · rw [childList_eq_nil h] at hc
          simp at hc
      have hwfc : ∀ x ∈ c.allNodes, x.type = "directory" ∨ x.children = none :=
        fun x hx => hwf x (mem_allNodes_trans (child_mem_allNodes hc) hx)
      rcases IH c hc (d0 + 1) B hBc hBdir hwfc with ⟨e, he⟩
      refine ⟨1 + e, ?_⟩
      rw [collectDirs_eq, if_pos hndir]
      apply List.mem_cons_of_mem
      apply mem_collectDirsL.mpr
      refine ⟨c, hc, ?_⟩
      have harith : d0 + (1 + e) = d0 + 1 + e := by omega
      rw [harith]
      exact he

/-- The traversal's append sequence visits exactly the directory nodes of
the tree, in preorder, provided file nodes carry no children. -/
theorem collect_fst_eq_filter {n : FileNode} :
    ∀ (d : Nat), (∀ x ∈ n.allNodes, x.type = "directory" ∨ x.children = none) →
      (collectDirs n d).map Prod.fst
        = n.allNodes.filter (fun x => x.type == "directory") := by
  induction n using FileNode.nodeInd with
  | step n IH =>
    intro d hwf
    rw [collectDirs_eq, allNodes_eq]
    by_cases ht : n.type = "directory"
    · rw [if_pos ht]
      have hbeq : (n.type == "directory") = true := by simp [ht]
      simp only [List.map_cons, List.filter_cons, hbeq, if_true]
      congr 1
      have key : ∀ (cs : List FileNode),
          (∀ c ∈ cs, ∀ (d' : Nat),
            (∀ x ∈ c.allNodes, x.type = "directory" ∨ x.children = none) →
            (collectDirs c d').map Prod.fst
              = c.allNodes.filter (fun x => x.type == "directory")) →
          (∀ c ∈ cs, ∀ x ∈ c.allNodes, x.type = "directory" ∨ x.children = none) →
          ∀ (d' : Nat), (collectDirsL cs d').map Prod.fst
            = (FileNode.allNodesL cs).filter (fun x => x.type == "directory") := by
        intro cs hIH hwf'
        induction cs with
        | nil => intro d'; simp [collectDirsL, FileNode.allNodesL]
        | cons c rest ihr =>
          intro d'
          simp only [collectDirsL, FileNode.allNodesL, List.map_append,
            List.filter_append]
          rw [hIH c (List.mem_cons_self _ _) d' (hwf' c (List.mem_cons_self _ _)),
            ihr (fun c' hc' => hIH c' (List.mem_cons_of_mem _ hc'))
              (fun c' hc' => hwf' c' (List.mem_cons_of_mem _ hc')) d']
      exact key n.childList (fun c hc => IH c hc)
        (fun c hc x hx => hwf x (mem_allNodes_trans (child_mem_allNodes hc) hx)) (d + 1)
    · rw [if_neg ht]
      have hnone : n.children = none := (hwf n (mem_allNodes_self n)).resolve_left ht
      rw [childList_eq_nil hnone]
      have hbeq : (n.type == "directory") = false := by
        simpa using ht
      simp [FileNode.allNodesL, List.filter_cons, hbeq]

/-- Grouping a list of keyed items by key and concatenating the groups in
any duplicate-free order that covers every key is a permutation of the
list — the defaultdict regrouping performed by `get_levels_bottom_up`. -/
theorem group_filter_perm :
    ∀ (D : List Nat) (l : List (FileNode × Nat)), D.Nodup →
      (∀ p ∈ l, p.2 ∈ D) →
      List.Perm ((D.map (fun d => l.filter (fun p => p.2 == d))).flatten) l := by
  intro D
  induction D with
  | nil =>
    intro l _ hall
    have hl : l = [] := by
      rcases l with _ | ⟨p, rest⟩
      · rfl
      · exact absurd (hall p (List.mem_cons_self _ _)) (by simp)
    rw [hl]
    simp
  | cons d D' ih =>
    intro l hnd hall
    have hd' : d ∉ D' := (List.nodup_cons.mp hnd).1
    have hnd' : D'.Nodup := (List.nodup_cons.mp hnd).2
    simp only [List.map_cons, List.flatten_cons]
    have hstep : ∀ e ∈ D', l.filter (fun p => p.2 == e)
        = (l.filter (fun p => !(p.2 == d))).filter (fun p => p.2 == e) := by
      intro e he
      have hed : ¬ e = d := fun hh => hd' (hh ▸ he)
      rw [List.filter_filter]
      apply List.filter_congr
      intro p _
      by_cases hpe : p.2 = e
      · simp [hpe, hed]
      · simp [hpe]
    have hcong : D'.map (fun e => l.filter (fun p => p.2 == e))
        = D'.map (fun e => (l.filter (fun p => !(p.2 == d))).filter
            (fun p => p.2 == e)) :=
      List.map_congr_left hstep
    rw [hcong]
    have hall' : ∀ p ∈ l.filter (fun p => !(p.2 == d)), p.2 ∈ D' := by
      intro p hp
      rcases List.mem_filter.mp hp with ⟨hpl, hneq⟩
      rcases List.mem_cons.mp (hall p hpl) with h1 | h2
      · exact absurd h1 (by simpa using hneq)
      · exact h2
    exact List.Perm.trans
      (List.Perm.append_left _ (ih _ hnd' hall'))
      (List.filter_append_perm _ l)

theorem get_levels_eq_of_dir {root : FileNode} (h : root.type = "directory") :
    get_levels_bottom_up root
      = ((List.range (maxDepthOf root + 1)).reverse).map (levelAt root) := by
  have hcoll : collectDirs root 0
      = (root, 0) :: collectDirsL root.childList 1 := by
    rw [collectDirs_eq, if_pos h]
  unfold get_levels_bottom_up
  rw [hcoll]

theorem get_levels_nil_of_not_dir {root : FileNode} (h : ¬ root.type = "directory") :
    get_levels_bottom_up root = [] := by
  have hcoll : collectDirs root 0 = [] := by
    rw [collectDirs_eq, if_neg h]
  unfold get_levels_bottom_up
  rw [hcoll]

theorem mem_levelAt_of_collect {root B : FileNode} {dB : Nat}
    (h : (B, dB) ∈ collectDirs root 0) : B ∈ levelAt root dB := by
  unfold levelAt
  exact List.mem_map.mpr ⟨(B, dB), List.mem_filter.mpr ⟨h, by simp⟩, rfl⟩

/-- Splitting the deepest-first walk at a depth boundary: every node of a
deeper level is emitted in the front part, every node of a shallower
level in the back part. -/
theorem walk_split {root : FileNode} {dA dB : Nat} (hroot : root.type = "directory")
    (hAB : dA < dB) (hBm : dB ≤ maxDepthOf root) :
    ∃ l₁ l₂, walk_bottom_up root = l₁ ++ l₂
      ∧ (∀ x ∈ levelAt root dB, x ∈ l₁)
      ∧ (∀ x ∈ levelAt root dA, x ∈ l₂) := by
  have hsum : dB + (maxDepthOf root + 1 - dB) = maxDepthOf root + 1 := by omega
  have hsplit : List.range (maxDepthOf root + 1)
      = List.range dB ++ (List.range (maxDepthOf root + 1 - dB)).map (dB + ·) := by
    conv_lhs => rw [← hsum]
    exact List.range_add dB (maxDepthOf root + 1 - dB)
  refine ⟨((((List.range (maxDepthOf root + 1 - dB)).map (dB + ·)).reverse).map
        (levelAt root)).flatten,
      (((List.range dB).reverse).map (levelAt root)).flatten, ?_, ?_, ?_⟩
  · rw [walk_bottom_up, get_levels_eq_of_dir hroot, hsplit, List.reverse_append,
      List.map_append, List.flatten_append]
  · intro x hx
    apply List.mem_flatten.mpr
    refine ⟨levelAt root dB, ?_, hx⟩
    apply List.mem_map_of_mem (levelAt root)
    apply List.mem_reverse.mpr
    exact List.mem_map.mpr ⟨0, List.mem_range.mpr (by omega), by simp⟩
  · intro x hx
    apply List.mem_flatten.mpr
    refine ⟨levelAt root dA, ?_, hx⟩
    apply List.mem_map_of_mem (levelAt root)
    exact List.mem_reverse.mpr (List.mem_range.mpr hAB)

/-- The i-th group of `get_levels_bottom_up` is the level at depth
`max_depth - i`. -/
theorem get_levels_get_eq {root : FileNode} (hroot : root.type = "directory")
    (i : Nat) (h : i < (get_levels_bottom_up root).length) :
    (get_levels_bottom_up root).get ⟨i, h⟩
      = levelAt root (maxDepthOf root - i) := by
  have hL := get_levels_eq_of_dir hroot
  rw [List.get_of_eq hL]
  have hlen : i < maxDepthOf root + 1 := by
    have := h
    rw [hL] at this
    simpa using this
  rw [List.get_eq_getElem, List.getElem_map, List.getElem_reverse,
    List.getElem_range]
  congr 1
  simp

/-- Claim C1: for every tree in which file nodes carry no children (as in
every tree the program builds), the bottom-up scheduler yields exactly
the directory nodes of the tree: all yielded nodes are directories, the
yield is a permutation of the tree's directory nodes, the level list has
one group per depth from the maximum depth down to 0, the i-th emitted
group is exactly the traversal's nodes of depth `max - i` in traversal
(insertion) order, and a descendant directory B is always yielded
strictly before its ancestor directory A. -/
theorem c1_bottom_up_scheduler (root : FileNode)
    (hwf : ∀ n ∈ root.allNodes, n.type = "directory" ∨ n.children = none) :
    (∀ n ∈ walk_bottom_up root, n.type = "directory")
    ∧ List.Perm (walk_bottom_up root)
        (root.allNodes.filter (fun n => n.type == "directory"))
    ∧ (root.type = "directory" →
        (get_levels_bottom_up root).length = maxDepthOf root + 1)
    ∧ (∀ (i : Nat) (h : i < (get_levels_bottom_up root).length),
        (get_levels_bottom_up root).get ⟨i, h⟩
          = ((collectDirs root 0).filter
              (fun p => p.2 == maxDepthOf root - i)).map Prod.fst)
    ∧ (∀ A B : FileNode, A ∈ root.allNodes → A.type = "directory" →
        B.type = "directory" → (∃ c ∈ A.childList, B ∈ c.allNodes) →
        ∃ l₁ l₂, walk_bottom_up root = l₁ ++ l₂ ∧ B ∈ l₁ ∧ A ∈ l₂) := by
  by_cases hroot : root.type = "directory"
  case neg =>
    have hnil : get_levels_bottom_up root = [] := get_levels_nil_of_not_dir hroot
    have hwalk : walk_bottom_up root = [] := by rw [walk_bottom_up, hnil]; rfl
    have hone : root.allNodes = [root] := by
      rw [allNodes_eq,
        childList_eq_nil ((hwf root (mem_allNodes_self root)).resolve_left hroot)]
      rfl
    refine ⟨?_, ?_, ?_, ?_, ?_⟩
    · intro n hn; rw [hwalk] at hn; simp at hn
    · rw [hwalk, hone]
      have : (root.type == "directory") = false := by simpa using hroot
      simp [List.filter_cons, this]
    · intro h; exact absurd h hroot
    · intro i h; rw [hnil] at h; simp at h
    · intro A B hA hAdir _ _
      rw [hone] at hA
      rcases List.mem_cons.mp hA with h1 | h2
      · subst h1; exact absurd hAdir hroot
      · simp at h2
  case pos =>
    have hwalk : walk_bottom_up root
        = (((List.range (maxDepthOf root + 1)).reverse).map (levelAt root)).flatten := by
      rw [walk_bottom_up, get_levels_eq_of_dir hroot]
    have hperm : List.Perm (walk_bottom_up root)
        (root.allNodes.filter (fun n => n.type == "directory")) := by
      rw [hwalk]
      have h1 : ((List.range (maxDepthOf root + 1)).reverse).map (levelAt root)
          = (((List.range (maxDepthOf root + 1)).reverse).map
              (fun d => (collectDirs root 0).filter (fun p => p.2 == d))).map
            (List.map Prod.fst) := by
        rw [List.map_map]
        rfl
      rw [h1, ← List.map_flatten]
      have h2 := group_filter_perm ((List.range (maxDepthOf root + 1)).reverse)
        (collectDirs root 0)
        (List.nodup_reverse.mpr (List.nodup_range _))
        (fun p hp => List.mem_reverse.mpr
          (List.mem_range.mpr (by have := collectDirs_snd_le hp; omega)))
      have h3 := h2.map Prod.fst
      rw [collect_fst_eq_filter 0 hwf] at h3
      exact h3
    refine ⟨?_, hperm, ?_, ?_, ?_⟩
    · intro n hn
      have hn2 := hperm.subset hn
      exact (by simpa using (List.mem_filter.mp hn2).2 : n.type = "directory")
    · intro _
      rw [get_levels_eq_of_dir hroot]
      simp
    · intro i h
      rw [get_levels_get_eq hroot i h]
      rfl
    · intro A B hA hAdir hBdir hdesc
      rcases hdesc with ⟨c, hc, hBc⟩
      obtain ⟨dA, hdA⟩ : ∃ dA, (A, dA) ∈ collectDirs root 0 := by
        obtain ⟨e, he⟩ := descendant_in_collect 0 A hA hAdir hwf
        exact ⟨0 + e, he⟩
      have hwfA : ∀ x ∈ A.allNodes, x.type = "directory" ∨ x.children = none :=
        fun x hx => hwf x (mem_allNodes_trans hA hx)
      have hwfc : ∀ x ∈ c.allNodes, x.type = "directory" ∨ x.children = none :=
        fun x hx => hwfA x (mem_allNodes_trans (child_mem_allNodes hc) hx)
      obtain ⟨e, he⟩ := descendant_in_collect (dA + 1) B hBc hBdir hwfc
      have hBin : (B, dA + 1 + e) ∈ collectDirs A dA := by
        rw [collectDirs_eq, if_pos hAdir]
        exact List.mem_cons_of_mem _ (mem_collectDirsL.mpr ⟨c, hc, he⟩)
      have hBroot : (B, dA + 1 + e) ∈ collectDirs root 0 :=
        collectDirs_sub 0 A dA hdA _ hBin
      have hBm : dA + 1 + e ≤ maxDepthOf root := collectDirs_snd_le hBroot
      obtain ⟨l₁, l₂, hs, hB1, hA2⟩ :=
        walk_split hroot (show dA < dA + 1 + e by omega) hBm
      exact ⟨l₁, l₂, hs, hB1 B (mem_levelAt_of_collect hBroot),
        hA2 A (mem_levelAt_of_collect hdA)⟩

/-- Claim C1, witness: in a three-node chain root/d/sub of directories,
the walk yields the deeper directory strictly before its ancestor. -/
theorem c1_bottom_up_scheduler_witness :
    ∃ l₁ l₂,
      walk_bottom_up (FileNode.mk "r" "directory" "." "" none none none
          (some [FileNode.mk "d" "directory" "d" "" none none none
            (some [FileNode.mk "sub" "directory" "d/sub" "" none none none
              (some [])])])) = l₁ ++ l₂
      ∧ FileNode.mk "sub" "directory" "d/sub" "" none none none (some []) ∈ l₁
      ∧ FileNode.mk "d" "directory" "d" "" none none none
          (some [FileNode.mk "sub" "directory" "d/sub" "" none none none
            (some [])]) ∈ l₂ := by
  apply (c1_bottom_up_scheduler _ ?hwf).2.2.2.2
  case hwf =>
    intro n hn
    have hn' : n ∈ [FileNode.mk "r" "directory" "." "" none none none
        (some [FileNode.mk "d" "directory" "d" "" none none none
          (some [FileNode.mk "sub" "directory" "d/sub" "" none none none
            (some [])])]),
      FileNode.mk "d" "directory" "d" "" none none none
        (some [FileNode.mk "sub" "directory" "d/sub" "" none none none (some [])]),
      FileNode.mk "sub" "directory" "d/sub" "" none none none (some [])] := hn
    simp only [List.mem_cons, List.not_mem_nil, or_false] at hn'
    rcases hn' with h | h | h <;> subst h <;> exact Or.inl rfl
  · exact List.Mem.tail _ (List.Mem.head _)
  · rfl
  · rfl
  · exact ⟨FileNode.mk "sub" "directory" "d/sub" "" none none none (some []),
      List.Mem.head _, mem_allNodes_self _⟩

/-! ## Claim C8: path uniqueness and the prefix hierarchy of build_tree -/

/-- What a real filesystem guarantees about one entry name: nonempty, no
path separator, and neither of the special names "." and "..". -/
def nameOk (s : String) : Prop :=
  s.data ≠ [] ∧ '/' ∉ s.data ∧ s.data ≠ ['.'] ∧ s.data ≠ ['.', '.']

/-- Well-formedness of one filesystem entry (recursing into
directories). -/
inductive EntryWf : FsEntry → Prop where
  | file (n : String) (sz : Nat) : nameOk n → EntryWf (.file n sz)
  | dir (n : String) (es : List FsEntry) : nameOk n →
      (es.map FsEntry.name).Nodup → (∀ e ∈ es, EntryWf e) → EntryWf (.dir n es)

/-- Well-formedness of one directory's entry list. -/
def EntriesWf (es : List FsEntry) : Prop :=
  (es.map FsEntry.name).Nodup ∧ ∀ e ∈ es, EntryWf e

/-- The shape of the `_rel_prefix` argument in every `build_tree` call:
empty at the root, otherwise a nonempty prefix ending in exactly one
separator, whose stripped form is not ".". -/
def ValidPre (π : String) : Prop :=
  π = "" ∨ ∃ qd : List Char, π.data = qd ++ ['/']
    ∧ qd ≠ [] ∧ qd.getLast? ≠ some '/' ∧ qd ≠ ['.']

/-- The possible continuation of a path after a complete name: nothing,
or a separator followed by more. -/
def SlashTail (t : List Char) : Prop :=
  t = [] ∨ ∃ r, t = '/' :: r

/-- The amended prefix-hierarchy shape: each child's path is its parent's
path plus "/" plus its own name, except that the root's "." sentinel
contributes nothing. -/
inductive HierOk : FileNode → Prop where
  | node (n : FileNode) :
      (∀ c ∈ n.childList,
        c.path = (if n.path = "." then "" else n.path ++ "/") ++ c.name) →
      (∀ c ∈ n.childList, HierOk c) →
      HierOk n

/-- The hierarchy shape exactly as claim C8 states it: every child's path
is the parent's path plus "/" plus the child's name, with no exception
for the root. -/
inductive StrictHierOk : FileNode → Prop where
  | node (n : FileNode) :
      (∀ c ∈ n.childList, c.path = n.path ++ "/" ++ c.name) →
      (∀ c ∈ n.childList, StrictHierOk c) →
      StrictHierOk n

theorem str_eq_iff_data {s t : String} : s = t ↔ s.data = t.data :=
  ⟨fun h => h ▸ rfl, String.ext⟩

theorem mkRel_data (π nm : String) : (mkRel π nm).data = π.data ++ nm.data := by
  unfold mkRel
  by_cases h : π = ""
  · rw [if_pos h, h]
    rfl
  · rw [if_neg h, String.data_append]

theorem allPaths_eq (n : FileNode) :
    n.allPaths = n.path :: FileNode.allPathsL n.childList := by
  rcases n with ⟨_, _, _, _, _, _, _, _ | cs⟩ <;> rfl

theorem mem_allPathsL {p : String} {cs : List FileNode} :
    p ∈ FileNode.allPathsL cs ↔ ∃ c ∈ cs, p ∈ c.allPaths := by
  induction cs with
  | nil => simp [FileNode.allPathsL]
  | cons c rest ih => simp [FileNode.allPathsL, ih]

theorem mem_of_getLast? {c : Char} {l : List Char} (h : l.getLast? = some c) :
    c ∈ l := by
  rw [← List.head?_reverse] at h
  rcases hl : l.reverse with _ | ⟨d, r⟩
  · rw [hl] at h; simp at h
  · rw [hl] at h
    simp at h
    rw [← List.mem_reverse, hl, h]
    exact List.mem_cons_self _ _

theorem getLast?_append_right (a b : List Char) (hb : b ≠ []) :
    (a ++ b).getLast? = b.getLast? := by
  rw [← List.head?_reverse, ← List.head?_reverse, List.reverse_append]
  rcases hrb : b.reverse with _ | ⟨c, r⟩
  · exact absurd (List.reverse_eq_nil_iff.mp hrb) hb
  · simp

theorem dropWhile_slash_eq_self {l : List Char} (h : l.getLast? ≠ some '/') :
    l.reverse.dropWhile (fun c => c == '/') = l.reverse := by
  rcases hl : l.reverse with _ | ⟨c, r⟩
  · simp
  · have hc : c ≠ '/' := by
      intro hc
      apply h
      rw [← List.head?_reverse, hl, hc]
      rfl
    rw [List.dropWhile_cons]
    simp [hc]

theorem rstrip_eval {s : String} {qd : List Char} (h : s.data = qd ++ ['/'])
    (hq : qd.getLast? ≠ some '/') : (rstripSlashes s).data = qd := by
  show ((s.data.reverse.dropWhile (fun c => c == '/')).reverse) = qd
  rw [h, List.reverse_append]
  simp only [List.reverse_cons, List.reverse_nil, List.nil_append,
    List.singleton_append]
  rw [List.dropWhile_cons]
  simp only [beq_self_eq_true, if_true]
  rw [dropWhile_slash_eq_self hq, List.reverse_reverse]

/-- Cancelling two complete separator-free names at the front of equal
path tails forces the names to be equal. -/
theorem slashfree_append_inj {a b t t' : List Char}
    (ha : '/' ∉ a) (hb : '/' ∉ b) (hta : SlashTail t) (htb : SlashTail t')
    (h : a ++ t = b ++ t') : a = b := by
  induction a generalizing b with
  | nil =>
    cases b with
    | nil => rfl
    | cons y bs =>
      exfalso
      rcases hta with h1 | ⟨r, h2⟩
      · rw [h1] at h
        exact absurd h.symm (by simp)
      · rw [h2] at h
        simp only [List.nil_append, List.cons_append, List.cons.injEq] at h
        exact hb (h.1 ▸ List.mem_cons_self _ _)
  | cons x as ih =>
    cases b with
    | nil =>
      exfalso
      rcases htb with h1 | ⟨r, h2⟩
      · rw [h1] at h
        exact absurd h (by simp)
      · rw [h2] at h
        simp only [List.nil_append, List.cons_append, List.cons.injEq] at h
        exact ha (h.1.symm ▸ List.mem_cons_self _ _)
    | cons y bs =>
      simp only [List.cons_append, List.cons.injEq] at h
      rcases h with ⟨hxy, hrest⟩
      have has : '/' ∉ as := fun hm => ha (List.mem_cons_of_mem _ hm)
      have hbs : '/' ∉ bs := fun hm => hb (List.mem_cons_of_mem _ hm)
      rw [hxy, ih has hbs hrest]

theorem setNamePath_self {n : FileNode} {nm p : String} (h1 : n.name = nm)
    (h2 : n.path = p) : n.setNamePath nm p = n := by
  rcases n with ⟨a, b, c, d, sb, sk, sr, cs⟩
  simp only [FileNode.name] at h1
  simp only [FileNode.path] at h2
  rw [FileNode.setNamePath, ← h1, ← h2]

theorem buildChildren_nil (pats : List String) (π : String) :
    buildChildren pats π [] = [] := by
  rw [buildChildren.eq_def]

theorem buildChildren_cons (pats : List String) (π : String) (e : FsEntry)
    (rest : List FsEntry) :
    buildChildren pats π (e :: rest) =
      if should_ignore e.name pats then buildChildren pats π rest
      else
        match e with
        | .file nm sz =>
          FileNode.mk nm "file" (mkRel π nm) "" (some sz) none none none
            :: buildChildren pats π rest
        | .dir nm sub =>
          (FileNode.setNamePath (build_tree nm sub pats (mkRel π nm ++ "/"))
              nm (mkRel π nm)) :: buildChildren pats π rest := by
  rw [buildChildren.eq_def]

theorem buildChildren_cons_ign (pats : List String) (π : String) (e : FsEntry)
    (rest : List FsEntry) (h : should_ignore e.name pats = true) :
    buildChildren pats π (e :: rest) = buildChildren pats π rest := by
  rw [buildChildren_cons, if_pos h]

theorem buildChildren_cons_file (pats : List String) (π : String) (nm : String)
    (sz : Nat) (rest : List FsEntry) (h : ¬ should_ignore nm pats = true) :
    buildChildren pats π (.file nm sz :: rest)
      = FileNode.mk nm "file" (mkRel π nm) "" (some sz) none none none
          :: buildChildren pats π rest := by
  rw [buildChildren_cons]
  simp only [FsEntry.name]
  rw [if_neg h]

theorem buildChildren_cons_dir (pats : List String) (π : String) (nm : String)
    (sub : List FsEntry) (rest : List FsEntry) (h : ¬ should_ignore nm pats = true) :
    buildChildren pats π (.dir nm sub :: rest)
      = (FileNode.setNamePath (build_tree nm sub pats (mkRel π nm ++ "/"))
          nm (mkRel π nm)) :: buildChildren pats π rest := by
  rw [buildChildren_cons]
  simp only [FsEntry.name]
  rw [if_neg h]

/-- Extending a valid prefix with one more well-formed name keeps it
valid. -/
theorem validPre_extend {π : String} (hπ : ValidPre π) {nm : String}
    (hnm : nameOk nm) :
    ValidPre (mkRel π nm ++ "/") ∧ (mkRel π nm).data = π.data ++ nm.data := by
  have hdata := mkRel_data π nm
  refine ⟨Or.inr ⟨π.data ++ nm.data, ?_, ?_, ?_, ?_⟩, hdata⟩
  · rw [String.data_append, hdata]
  · intro hh
    exact hnm.1 (List.append_eq_nil.mp hh).2
  · rw [getLast?_append_right _ _ hnm.1]
    intro hh
    exact hnm.2.1 (mem_of_getLast? hh)
  · rcases hπ with h0 | ⟨qd0, hq, _, _, _⟩
    · subst h0
      simpa using hnm.2.2.1
    · intro hh
      have hmem : '/' ∈ π.data ++ nm.data := by
        rw [hq]
        exact List.mem_append_left _ (List.mem_append_right _ (List.mem_cons_self _ _))
      rw [hh] at hmem
      simp at hmem

/-- Names at the front of equal path tails agree. -/
theorem name_tail_eq {π nmA nmB : String} {t t' x : List Char}
    (hA : nameOk nmA) (hB : nameOk nmB) (hta : SlashTail t) (htb : SlashTail t')
    (h1 : x = π.data ++ nmA.data ++ t) (h2 : x = π.data ++ nmB.data ++ t') :
    nmA = nmB := by
  rw [h1] at h2
  rw [List.append_assoc, List.append_assoc] at h2
  have h3 := List.append_cancel_left h2
  exact str_eq_iff_data.mpr (slashfree_append_inj hA.2.1 hB.2.1 hta htb h3)

theorem orDot_rstrip_data {π : String} {qd : List Char} (hq : π.data = qd ++ ['/'])
    (hqne : qd ≠ []) (hqlast : qd.getLast? ≠ some '/') :
    (orDot (rstripSlashes π)).data = qd := by
  have h1 : (rstripSlashes π).data = qd := rstrip_eval hq hqlast
  unfold orDot
  rw [if_neg (fun hh => hqne (by rw [← h1, hh]))]
  exact h1

/-- The combined invariant `build_tree` maintains: root path shape, path
uniqueness, the (amended) prefix hierarchy, and the shape of every
non-root path relative to the build prefix. -/
def BuildPathProps (name : String) (es : List FsEntry) (pats : List String)
    (π : String) : Prop :=
  (build_tree name es pats π).path = orDot (rstripSlashes π)
  ∧ (build_tree name es pats π).allPaths.Nodup
  ∧ HierOk (build_tree name es pats π)
  ∧ ∀ p ∈ FileNode.allPathsL (build_tree name es pats π).childList,
      ∃ nm t, nameOk nm ∧ SlashTail t ∧ p.data = π.data ++ nm.data ++ t

/-- Properties of the child nodes `buildChildren` produces, given the
outer induction hypothesis for the subtrees of member directories:
child names form a sublist of the entry names, every child is rooted at
`prefix ++ name` with a unique, hierarchy-respecting subtree, and the
concatenated path lists of the children contain no duplicate. -/
theorem buildChildren_props (pats : List String) :
    ∀ (ℓ : List FsEntry) (π : String), ValidPre π →
      (∀ nm sub, FsEntry.dir nm sub ∈ ℓ →
        ∀ (name' : String) (π' : String), ValidPre π' →
          EntriesWf sub → BuildPathProps name' sub pats π') →
      (∀ e ∈ ℓ, EntryWf e) → ((ℓ.map FsEntry.name).Nodup) →
      ((buildChildren pats π ℓ).map FileNode.name).Sublist (ℓ.map FsEntry.name)
      ∧ (∀ c ∈ buildChildren pats π ℓ,
          nameOk c.name ∧ c.path.data = π.data ++ c.name.data ∧ HierOk c
          ∧ c.allPaths.Nodup
          ∧ ∀ p ∈ c.allPaths, ∃ t, SlashTail t
              ∧ p.data = π.data ++ c.name.data ++ t)
      ∧ (FileNode.allPathsL (buildChildren pats π ℓ)).Nodup := by
  intro ℓ
  induction ℓ with
  | nil =>
    intro π _ _ _ _
    rw [buildChildren_nil]
    exact ⟨List.nil_sublist _, fun c hc => absurd hc (List.not_mem_nil c),
      List.Pairwise.nil⟩
  | cons e rest ih =>
    intro π hπ hIH hwfE hnames
    have hIH' : ∀ nm sub, FsEntry.dir nm sub ∈ rest →
        ∀ (name' : String) (π' : String), ValidPre π' →
          EntriesWf sub → BuildPathProps name' sub pats π' :=
      fun nm sub hmem => hIH nm sub (List.mem_cons_of_mem _ hmem)
    have hwfE' : ∀ e' ∈ rest, EntryWf e' :=
      fun e' he' => hwfE e' (List.mem_cons_of_mem _ he')
    have hnames2 : (e.name :: rest.map FsEntry.name).Nodup := by
      simpa using hnames
    have hnames' : (rest.map FsEntry.name).Nodup := (List.nodup_cons.mp hnames2).2
    have hnotin : e.name ∉ rest.map FsEntry.name := (List.nodup_cons.mp hnames2).1
    obtain ⟨ihA, ihB, ihC⟩ := ih π hπ hIH' hwfE' hnames'
    by_cases hig : should_ignore e.name pats
    · rw [buildChildren_cons_ign pats π e rest hig]
      refine ⟨?_, ihB, ihC⟩
      simp only [List.map_cons]
      exact List.Sublist.cons _ ihA
    · rcases e with ⟨nm, sz⟩ | ⟨nm, sub⟩
      · -- file entry
        rw [buildChildren_cons_file pats π nm sz rest hig]
        have hnmOk : nameOk nm := by
          have h := hwfE _ (List.mem_cons_self _ _)
          cases h with
          | file _ _ hOk => exact hOk
        refine ⟨?_, ?_, ?_⟩
        · simp only [List.map_cons]
          exact List.Sublist.cons₂ _ ihA
        · intro c hc
          rcases List.mem_cons.mp hc with hh | ht
          · subst hh
            refine ⟨hnmOk, by rw [FileNode.path, FileNode.name, mkRel_data], ?_, ?_, ?_⟩
            · exact HierOk.node _ (fun c' hc' => absurd hc' (by simp [FileNode.childList]))
                (fun c' hc' => absurd hc' (by simp [FileNode.childList]))
            · exact List.nodup_singleton _
            · intro p hp
              have hp' : p = mkRel π nm := by simpa [FileNode.allPaths] using hp
              refine ⟨[], Or.inl rfl, ?_⟩
              rw [hp', FileNode.name, mkRel_data, List.append_nil]
          · exact ihB c ht
        · show (FileNode.allPathsL (_ :: buildChildren pats π rest)).Nodup
          rw [show ∀ (c : FileNode) (cs : List FileNode), FileNode.allPathsL (c :: cs)
              = c.allPaths ++ FileNode.allPathsL cs from fun _ _ => rfl]
          rw [List.nodup_append]
          refine ⟨List.nodup_singleton _, ihC, ?_⟩
          intro x hx hx2
          have hxeq : x = mkRel π nm := by simpa [FileNode.allPaths] using hx
          rcases mem_allPathsL.mp hx2 with ⟨c, hcmem, hpc⟩
          obtain ⟨hcOk, _, _, _, hchar⟩ := ihB c hcmem
          obtain ⟨t, hst, hdata⟩ := hchar x hpc
          have h1 : x.data = π.data ++ nm.data ++ [] := by
            rw [hxeq, mkRel_data, List.append_nil]
          have hnmeq : nm = c.name :=
            name_tail_eq hnmOk hcOk (Or.inl rfl) hst h1 hdata
          apply hnotin
          have hmem2 : c.name ∈ (buildChildren pats π rest).map FileNode.name :=
            List.mem_map_of_mem _ hcmem
          have hmem3 := ihA.subset hmem2
          rw [← hnmeq] at hmem3
          exact hmem3
      · -- directory entry
        rw [buildChildren_cons_dir pats π nm sub rest hig]
        have hEwf := hwfE _ (List.mem_cons_self _ _)
        have hnmOk : nameOk nm := by
          cases hEwf with
          | dir _ _ hOk _ _ => exact hOk
        have hsubwf : EntriesWf sub := by
          cases hEwf with
          | dir _ _ _ hn hw => exact ⟨hn, hw⟩
        obtain ⟨hvp', hreldata⟩ := validPre_extend hπ hnmOk
        obtain ⟨hSpath, hSnodup, hShier, hSchar⟩ :=
          hIH nm sub (List.mem_cons_self _ _) nm (mkRel π nm ++ "/") hvp' hsubwf
        have hname_build : (build_tree nm sub pats (mkRel π nm ++ "/")).name = nm := by
          rw [build_tree]
          rfl
        have hπ'data : (mkRel π nm ++ "/").data = (π.data ++ nm.data) ++ ['/'] := by
          rw [String.data_append, hreldata]
        have hlast : (π.data ++ nm.data).getLast? ≠ some '/' := by
          rw [getLast?_append_right _ _ hnmOk.1]
          intro hh
          exact hnmOk.2.1 (mem_of_getLast? hh)
        have hpath_val : (build_tree nm sub pats (mkRel π nm ++ "/")).path
            = mkRel π nm := by
          rw [hSpath]
          apply String.ext
          rw [orDot_rstrip_data hπ'data (fun hh => hnmOk.1 (List.append_eq_nil.mp hh).2)
            hlast, hreldata]
        have hset : FileNode.setNamePath (build_tree nm sub pats (mkRel π nm ++ "/"))
            nm (mkRel π nm) = build_tree nm sub pats (mkRel π nm ++ "/") :=
          setNamePath_self hname_build hpath_val
        rw [hset]
        have hc₀char : ∀ p ∈ (build_tree nm sub pats (mkRel π nm ++ "/")).allPaths,
            ∃ t, SlashTail t ∧ p.data = π.data ++ nm.data ++ t := by
          intro p hp
          rw [allPaths_eq] at hp
          rcases List.mem_cons.mp hp with h1 | h2
          · subst h1
            refine ⟨[], Or.inl rfl, ?_⟩
            rw [hpath_val, hreldata, List.append_nil]
          · obtain ⟨nm', t', hnm'Ok, hst', hd'⟩ := hSchar p h2
            refine ⟨'/' :: (nm'.data ++ t'), Or.inr ⟨_, rfl⟩, ?_⟩
            rw [hd', hπ'data]
            simp [List.append_assoc]
        refine ⟨?_, ?_, ?_⟩
        · simp only [List.map_cons, hname_build]
          exact List.Sublist.cons₂ _ ihA
        · intro c hc
          rcases List.mem_cons.mp hc with hh | ht
          · subst hh
            refine ⟨?_, ?_, hShier, hSnodup, ?_⟩
            · rw [hname_build]; exact hnmOk
            · rw [hname_build, hpath_val, hreldata]
            · rw [hname_build]
              exact hc₀char
          · exact ihB c ht
        · show (FileNode.allPathsL (_ :: buildChildren pats π rest)).Nodup
          rw [show ∀ (c : FileNode) (cs : List FileNode), FileNode.allPathsL (c :: cs)
              = c.allPaths ++ FileNode.allPathsL cs from fun _ _ => rfl]
          rw [List.nodup_append]
          refine ⟨hSnodup, ihC, ?_⟩
          intro x hx hx2
          obtain ⟨t, hst, hdata⟩ := hc₀char x hx
          rcases mem_allPathsL.mp hx2 with ⟨c, hcmem, hpc⟩
          obtain ⟨hcOk, _, _, _, hchar⟩ := ihB c hcmem
          obtain ⟨t', hst', hdata'⟩ := hchar x hpc
          have hnmeq : nm = c.name := name_tail_eq hnmOk hcOk hst hst' hdata hdata'
          apply hnotin
          have hmem2 : c.name ∈ (buildChildren pats π rest).map FileNode.name :=
            List.mem_map_of_mem _ hcmem
          have hmem3 := ihA.subset hmem2
          rw [← hnmeq] at hmem3
          exact hmem3

theorem build_tree_props (es : List FsEntry) :
    ∀ (name : String) (pats : List String) (π : String),
      ValidPre π → EntriesWf es → BuildPathProps name es pats π := by
  induction es using FsEntry.entriesInd with
  | step es IH =>
    intro name pats π hπ hwfE
    have hIHs : ∀ nm sub, FsEntry.dir nm sub ∈ sortEntries es →
        ∀ (name' : String) (π' : String), ValidPre π' →
          EntriesWf sub → BuildPathProps name' sub pats π' :=
      fun nm sub hmem name' π' hp hw =>
        IH nm sub (mem_sortEntries hmem) name' pats π' hp hw
    have hwfS : ∀ e ∈ sortEntries es, EntryWf e :=
      fun e he => hwfE.2 e (mem_sortEntries he)
    have hnamesS : ((sortEntries es).map FsEntry.name).Nodup :=
      ((sortEntries_perm es).map FsEntry.name).nodup_iff.mpr hwfE.1
    obtain ⟨_, qB, qC⟩ :=
      buildChildren_props pats (sortEntries es) π hπ hIHs hwfS hnamesS
    have hcl : (build_tree name es pats π).childList
        = buildChildren pats π (sortEntries es) := by
      rw [build_tree]
      rfl
    have hpathEq : (build_tree name es pats π).path = orDot (rstripSlashes π) := by
      rw [build_tree]
      rfl
    have hall : (build_tree name es pats π).allPaths
        = orDot (rstripSlashes π)
          :: FileNode.allPathsL (buildChildren pats π (sortEntries es)) := by
      rw [allPaths_eq, hpathEq, hcl]
    refine ⟨hpathEq, ?_, ?_, ?_⟩
    · rw [hall, List.nodup_cons]
      refine ⟨?_, qC⟩
      intro hmem
      rcases mem_allPathsL.mp hmem with ⟨c, hcmem, hpc⟩
      obtain ⟨hcOk, _, _, _, hchar⟩ := qB c hcmem
      obtain ⟨t, hst, hdata⟩ := hchar _ hpc
      rcases hπ with h0 | ⟨qd, hq, hqne, hqlast, hqdot⟩
      · subst h0
        have hdot : (orDot (rstripSlashes "")).data = ['.'] := by decide
        rw [hdot] at hdata
        have hdata2 : ['.'] = c.name.data ++ t := by
          simpa using hdata
        rcases hnm : c.name.data with _ | ⟨ch, chrest⟩
        · exact hcOk.1 hnm
        · rw [hnm] at hdata2
          simp only [List.cons_append, List.cons.injEq] at hdata2
          rcases hdata2 with ⟨hch, hrest⟩
          rcases List.append_eq_nil.mp hrest.symm with ⟨hr1, _⟩
          apply hcOk.2.2.1
          rw [hnm, hr1, ← hch]
      · have hroot : (orDot (rstripSlashes π)).data = qd :=
          orDot_rstrip_data hq hqne hqlast
        rw [hroot, hq] at hdata
        have hlen := congrArg List.length hdata
        simp only [List.length_append, List.length_cons, List.length_nil] at hlen
        omega
    · refine HierOk.node _ ?_ ?_
      · intro c hc
        rw [hcl] at hc
        obtain ⟨hcOk, hcpath, _, _, _⟩ := qB c hc
        rw [hpathEq]
        rcases hπ with h0 | ⟨qd, hq, hqne, hqlast, hqdot⟩
        · subst h0
          have hdot : orDot (rstripSlashes "") = "." := by decide
          rw [hdot, if_pos rfl]
          apply String.ext
          rw [String.data_append, hcpath]
        · have hroot : (orDot (rstripSlashes π)).data = qd :=
            orDot_rstrip_data hq hqne hqlast
          have hnotdot : orDot (rstripSlashes π) ≠ "." := by
            intro hh
            apply hqdot
            rw [← hroot, hh]
          rw [if_neg hnotdot]
          apply String.ext
          rw [String.data_append, String.data_append, hroot, hcpath, hq]
      · intro c hc
        rw [hcl] at hc
        exact (qB c hc).2.2.1
    · intro p hp
      rw [hcl] at hp
      rcases mem_allPathsL.mp hp with ⟨c, hcmem, hpc⟩
      obtain ⟨hcOk, _, _, _, hchar⟩ := qB c hcmem
      obtain ⟨t, hst, hdata⟩ := hchar _ hpc
      exact ⟨c.name, t, hcOk, hst, hdata⟩

/-- Claim C8, counterexample.  In the tree built for a directory holding
one file "a", the root's path is the sentinel "." and the file's path is
"a" — not "." ++ "/" ++ "a" — so the claim's unconditional rule
"every non-root node's path equals its parent's path + \"/\" + its own
name" fails at every child of the root. -/
theorem c8_counterexample :
    (build_tree "r" [FsEntry.file "a" 1] [] "").path = "."
    ∧ ¬ StrictHierOk (build_tree "r" [FsEntry.file "a" 1] [] "") := by
  have hpath : (build_tree "r" [FsEntry.file "a" 1] [] "").path = "." := by
    rw [build_tree]
    decide
  have hcl : (build_tree "r" [FsEntry.file "a" 1] [] "").childList
      = [FileNode.mk "a" "file" "a" "" (some 1) none none none] := by
    rw [build_tree]
    show buildChildren [] "" (sortEntries [FsEntry.file "a" 1]) = _
    rw [show sortEntries [FsEntry.file "a" 1] = [FsEntry.file "a" 1] from rfl]
    rw [buildChildren_cons_file [] "" "a" 1 [] (by decide), buildChildren_nil]
    rw [show mkRel "" "a" = "a" from by decide]
  refine ⟨hpath, ?_⟩
  intro hstrict
  cases hstrict with
  | node _ hform _ =>
    have h := hform (FileNode.mk "a" "file" "a" "" (some 1) none none none)
      (by rw [hcl]; exact List.mem_cons_self _ _)
    rw [hpath] at h
    have : ("a" : String) = "." ++ "/" ++ "a" := h
    exact absurd this (by decide)

/-- Claim C8, amended: in every tree `build_tree` produces from a
well-formed directory (distinct, nonempty, separator-free entry names),
node paths are unique, the root's path is the sentinel ".", and every
non-root node's path is its parent's path + "/" + its own name EXCEPT
for the children of the root, whose path is just their own name (the
root's "." sentinel is not used as a path prefix). -/
theorem c8_build_tree_paths (name : String) (es : List FsEntry)
    (pats : List String) (hwf : EntriesWf es) :
    (build_tree name es pats "").path = "."
    ∧ (build_tree name es pats "").allPaths.Nodup
    ∧ HierOk (build_tree name es pats "") := by
  obtain ⟨h1, h2, h3, _⟩ := build_tree_props es name pats "" (Or.inl rfl) hwf
  refine ⟨?_, h2, h3⟩
  rw [h1]
  decide

/-- Claim C8, witness: a directory with a file "a" and a subdirectory "b"
satisfies the amended path properties. -/
theorem c8_build_tree_paths_witness :
    (build_tree "r" [FsEntry.file "a" 1, FsEntry.dir "b" []] [] "").path = "."
    ∧ (build_tree "r" [FsEntry.file "a" 1, FsEntry.dir "b" []] [] "").allPaths.Nodup
    ∧ HierOk (build_tree "r" [FsEntry.file "a" 1, FsEntry.dir "b" []] [] "") := by
  apply c8_build_tree_paths
  constructor
  · decide
  · intro e he
    have he' : e ∈ [FsEntry.file "a" 1, FsEntry.dir "b" []] := he
    simp only [List.mem_cons, List.not_mem_nil, or_false] at he'
    rcases he' with h | h
    · subst h
      exact EntryWf.file _ _ (by constructor <;> simp)
    · subst h
      refine EntryWf.dir _ _ ?_ (by decide) (by intro e' he'; simp at he')
      constructor <;> simp
